import Mathlib

/-!
# Verification of the RRPE commit/reveal/extract core

Shallow embedding of `src/commit_reveal.py`, `src/extractor.py` and the
relevant configuration of the `rrpe-drbg` repository, together with proofs
about the embedded definitions.

Modelling conventions:
* Python `float` prices are modelled as exact rationals (`ℚ`); the code
  rounds every price to the fixed 4-decimal canonical precision
  (`COMMIT_PRICE_DECIMALS = 4`) before it is serialized or compared, and the
  specification (§4.1, §9) mandates a fixed-scale decimal representation at
  all serialization boundaries, so the rational model is taken at that
  canonical scale.
* `hashlib.sha256(...).hexdigest()` and `hmac.new(...).hexdigest()` are
  external library collaborators; they are modelled as function parameters
  (`sha : List ℕ → String` mapping a byte string to its hex digest, and
  `hmacHex : String → String → String` mapping key and message to a hex
  digest).  Determinism of the hash is automatic.  Facts such as the digest
  length (64 hex characters) or collision-freeness on a candidate space are
  taken as explicit hypotheses where a theorem needs them.
* File-system state (the per-day JSON document and the append-only entropy
  CSV) is passed explicitly; an operation returns the new state.
* Python exceptions are modelled with `Except String`.
* All strings appearing in the protocol (ISO dates, symbols, contexts, hex
  digests) are ASCII, so `str.encode("utf-8")` is modelled as the list of
  character code points.
-/

namespace RRPE

/-! ## Python-style numeric primitives -/

/-- The floor of a rational, written so that it evaluates by kernel
reduction (`Int.floor` on `ℚ` goes through the `FloorRing` instance, which
does not). -/
def ratFloor (q : ℚ) : ℤ := q.num / q.den

theorem ratFloor_eq (q : ℚ) : ratFloor q = ⌊q⌋ := Rat.floor_def.symm

/-- The absolute value of a rational, by case split (evaluates by kernel
reduction). -/
def ratAbs (q : ℚ) : ℚ := if q < 0 then -q else q

theorem ratAbs_eq (q : ℚ) : ratAbs q = |q| := by
  unfold ratAbs
  split_ifs with h
  · exact (abs_of_neg h).symm
  · exact (abs_of_nonneg (not_lt.mp h)).symm

/-- Python `round(x)`: round half to even (banker's rounding), on exact
rationals. -/
def pyRound (q : ℚ) : ℤ :=
  let f : ℤ := ratFloor q
  let r : ℚ := q - (f : ℚ)
  if r < 1/2 then f
  else if 1/2 < r then f + 1
  else if f % 2 = 0 then f else f + 1

/-- Python `int(x)` on a float: truncation toward zero. -/
def pyInt (q : ℚ) : ℤ :=
  if q < 0 then -(ratFloor (-q)) else ratFloor q

/-- Python `min` on two ints. -/
def pyMin (a b : ℤ) : ℤ := if a ≤ b then a else b

theorem pyMin_eq_min (a b : ℤ) : pyMin a b = min a b := (min_def a b).symm

/-- Python string slicing `s[:n]`: the first `n` characters. -/
def strTake (s : String) (n : ℕ) : String := ⟨s.data.take n⟩

/-- `COMMIT_PRICE_DECIMALS = 4` (src/commit_reveal.py line 51). -/
def COMMIT_PRICE_DECIMALS : ℕ := 4

/-- `_round_commit_price(value) = round(float(value), COMMIT_PRICE_DECIMALS)`
(src/commit_reveal.py lines 54-55): rounding to the 4-decimal grid,
half-to-even as in Python. -/
def roundCommitPrice (q : ℚ) : ℚ :=
  (pyRound (q * 10000) : ℚ) / 10000

unseal Rat.add Rat.mul Rat.sub Rat.inv Rat.ofScientific in
example : roundCommitPrice (123.45675) = 123.4568 := by decide

unseal Rat.add Rat.mul Rat.sub Rat.inv Rat.ofScientific in
example : roundCommitPrice (123.4567) = 123.4567 := by decide

unseal Rat.add Rat.mul Rat.sub Rat.inv Rat.ofScientific in
example : pyInt (87.66) = 87 := by decide

unseal Rat.add Rat.mul Rat.sub Rat.inv Rat.ofScientific in
example : pyRound (13.6) = 14 := by decide

/-! ## Decimal / hex character rendering -/

/-- The character for a decimal digit (`'0'`-`'9'`). -/
def digitChar (d : ℕ) : Char := Char.ofNat (48 + d % 10)

/-- The character for a hex digit as produced by `bytes.hex()` /
`hexdigest()` (lowercase). -/
def hexDigitChar (d : ℕ) : Char :=
  if d % 16 < 10 then Char.ofNat (48 + d % 16) else Char.ofNat (87 + d % 16)

/-- Decimal digit value of a character, `10` for non-digits. -/
def charDigit (c : Char) : ℕ :=
  if 48 ≤ c.toNat ∧ c.toNat ≤ 57 then c.toNat - 48 else 10

/-- Digits of `n` (most-significant first), by structural recursion on a
fuel bound so that it evaluates by kernel reduction. -/
def natCharsAux : ℕ → ℕ → List Char
  | 0, _ => []
  | _ + 1, 0 => []
  | fuel + 1, n => natCharsAux fuel (n / 10) ++ [digitChar (n % 10)]

/-- The decimal rendering of a natural number, as Python `str(n)`
(most-significant digit first). -/
def natChars (n : ℕ) : List Char :=
  if n = 0 then ['0'] else natCharsAux n n

/-- The decimal rendering of an integer, as Python `str(i)`. -/
def intChars (i : ℤ) : List Char :=
  if i < 0 then '-' :: natChars i.natAbs else natChars i.natAbs

/-- Parse a decimal digit string back to a natural number (left inverse of
`natChars`). -/
def natOfChars (cs : List Char) : ℕ :=
  Nat.ofDigits 10 ((cs.map charDigit).reverse)

theorem charDigit_digitChar (d : ℕ) (hd : d < 10) : charDigit (digitChar d) = d := by
  revert d
  decide

theorem natOfChars_natCharsAux :
    ∀ (fuel n : ℕ), n ≤ fuel → natOfChars (natCharsAux fuel n) = n
  | 0, n, h => by
    interval_cases n
    simp [natCharsAux, natOfChars, Nat.ofDigits]
  | fuel + 1, 0, _ => by simp [natCharsAux, natOfChars, Nat.ofDigits]
  | fuel + 1, n + 1, h => by
    rw [show natCharsAux (fuel + 1) (n + 1)
        = natCharsAux fuel ((n + 1) / 10) ++ [digitChar ((n + 1) % 10)] from rfl]
    have hrec := natOfChars_natCharsAux fuel ((n + 1) / 10)
      (by omega)
    unfold natOfChars at hrec ⊢
    rw [List.map_append, List.reverse_append]
    simp only [List.map_cons, List.map_nil, List.reverse_cons, List.reverse_nil,
      List.nil_append, List.singleton_append, Nat.ofDigits_cons]
    rw [hrec, charDigit_digitChar _ (Nat.mod_lt _ (by norm_num))]
    omega

theorem natOfChars_natChars (n : ℕ) : natOfChars (natChars n) = n := by
  unfold natChars
  split_ifs with h
  · subst h; decide
  · exact natOfChars_natCharsAux n n le_rfl

theorem natChars_injective : Function.Injective natChars := by
  intro a b h
  have := congrArg natOfChars h
  rwa [natOfChars_natChars, natOfChars_natChars] at this

/-- The 4 fixed fractional digits of the canonical 4-decimal price
rendering. -/
def frac4Chars (m : ℕ) : List Char :=
  [digitChar (m / 1000 % 10), digitChar (m / 100 % 10),
   digitChar (m / 10 % 10), digitChar (m % 10)]

theorem digitChar_inj (a b : ℕ) (ha : a < 10) (hb : b < 10)
    (h : digitChar a = digitChar b) : a = b := by
  revert h; revert b; revert a
  decide

theorem frac4Chars_length (m : ℕ) : (frac4Chars m).length = 4 := rfl

theorem frac4Chars_inj (m₁ m₂ : ℕ) (h₁ : m₁ < 10000) (h₂ : m₂ < 10000)
    (h : frac4Chars m₁ = frac4Chars m₂) : m₁ = m₂ := by
  unfold frac4Chars at h
  simp only [List.cons.injEq, and_true] at h
  obtain ⟨e₁, e₂, e₃, e₄⟩ := h
  have d₁ := digitChar_inj _ _ (Nat.mod_lt _ (by norm_num)) (Nat.mod_lt _ (by norm_num)) e₁
  have d₂ := digitChar_inj _ _ (Nat.mod_lt _ (by norm_num)) (Nat.mod_lt _ (by norm_num)) e₂
  have d₃ := digitChar_inj _ _ (Nat.mod_lt _ (by norm_num)) (Nat.mod_lt _ (by norm_num)) e₃
  have d₄ := digitChar_inj _ _ (Nat.mod_lt _ (by norm_num)) (Nat.mod_lt _ (by norm_num)) e₄
  omega

/-! ## Canonical price rendering

The scaled (×10⁴) integer value of a price, and its fixed 4-decimal string
form, the canonical serialization of a price mandated by spec §4.1 / §9
("a price must be rendered with a fixed 4-decimal-place canonical form
before serialization").  Every price entering a payload has been put on the
4-decimal grid by `_round_commit_price` first. -/

/-- The scaled nonnegative integer behind a (nonnegative, on-grid) price. -/
def priceScaled (q : ℚ) : ℕ := (ratFloor (q * 10000)).toNat

/-- Canonical digits of a nonnegative price given its scaled value. -/
def renderScaledPrice (n : ℕ) : List Char :=
  natChars (n / 10000) ++ '.' :: frac4Chars (n % 10000)

/-- Canonical 4-decimal rendering of a price. -/
def renderPriceChars (q : ℚ) : List Char :=
  if q < 0 then '-' :: renderScaledPrice (priceScaled (-q))
  else renderScaledPrice (priceScaled q)

theorem renderScaledPrice_inj (n₁ n₂ : ℕ)
    (h : renderScaledPrice n₁ = renderScaledPrice n₂) : n₁ = n₂ := by
  unfold renderScaledPrice at h
  have hlen : ('.' :: frac4Chars (n₁ % 10000)).length
      = ('.' :: frac4Chars (n₂ % 10000)).length := by
    simp [frac4Chars_length]
  obtain ⟨hq, hf⟩ := List.append_inj' h hlen
  have hdiv := natChars_injective hq
  have hmod := frac4Chars_inj _ _ (Nat.mod_lt _ (by norm_num))
    (Nat.mod_lt _ (by norm_num)) (List.cons.inj hf).2
  omega

/-- A price that lies exactly on the 4-decimal canonical grid. -/
def onGrid (q : ℚ) : Prop := ((ratFloor (q * 10000) : ℤ) : ℚ) = q * 10000

instance (q : ℚ) : Decidable (onGrid q) := by unfold onGrid; infer_instance

theorem renderPriceChars_inj_pos (q₁ q₂ : ℚ)
    (hp₁ : 0 < q₁) (hp₂ : 0 < q₂) (hg₁ : onGrid q₁) (hg₂ : onGrid q₂)
    (h : renderPriceChars q₁ = renderPriceChars q₂) : q₁ = q₂ := by
  unfold renderPriceChars at h
  rw [if_neg (not_lt.mpr hp₁.le), if_neg (not_lt.mpr hp₂.le)] at h
  have hs := renderScaledPrice_inj _ _ h
  unfold priceScaled at hs
  have h₁ : (0:ℤ) ≤ ratFloor (q₁ * 10000) := by
    rw [ratFloor_eq]; exact Int.floor_nonneg.mpr (by positivity)
  have h₂ : (0:ℤ) ≤ ratFloor (q₂ * 10000) := by
    rw [ratFloor_eq]; exact Int.floor_nonneg.mpr (by positivity)
  have hf : ratFloor (q₁ * 10000) = ratFloor (q₂ * 10000) := by omega
  have : q₁ * 10000 = q₂ * 10000 := by rw [← hg₁, ← hg₂, hf]
  linarith

/-! ## The canonical payload codec (`_canonical_json`, lines 15-17)

`json.dumps(obj, sort_keys=True, separators=(",", ":"))`: keys sorted
lexicographically, no insignificant whitespace.  The payloads hashed by this
program hold strings, integers and canonically rounded prices. -/

/-- A JSON value as used in commit payloads. -/
inductive JVal where
  | s (v : String)
  | i (v : ℤ)
  | price (v : ℚ)
deriving DecidableEq

/-- One field of a payload mapping. -/
abbrev JField := String × JVal

/-- Rendering of one JSON value (strings in the payload are ASCII without
escapes; prices are rendered in the fixed 4-decimal canonical form mandated
by spec §4.1). -/
def renderJVal : JVal → List Char
  | .s v => '\x22' :: (v.data ++ ['\x22'])
  | .i v => intChars v
  | .price v => renderPriceChars v

/-- `"key":value` rendering of one field. -/
def renderField (f : JField) : List Char :=
  '\x22' :: (f.1.data ++ '\x22' :: ':' :: renderJVal f.2)

/-- Comma-joined rendering of a field list. -/
def renderFields : List JField → List Char
  | [] => []
  | [f] => renderField f
  | f :: g :: rest => renderField f ++ ',' :: renderFields (g :: rest)

/-- Sorting the fields by key (`sort_keys=True`). -/
def sortFields (l : List JField) : List JField :=
  l.insertionSort fun a b => a.1 ≤ b.1

/-- `_canonical_json(obj) = json.dumps(obj, sort_keys=True,
separators=(",", ":"))` (src/commit_reveal.py lines 15-17). -/
def canonicalJson (l : List JField) : String :=
  ⟨'\x7b' :: (renderFields (sortFields l) ++ ['\x7d'])⟩

theorem pairwise_and_aux {α : Type _} {R S : α → α → Prop} :
    {l : List α} → l.Pairwise R → l.Pairwise S →
      l.Pairwise fun a b => R a b ∧ S a b
  | [], _, _ => .nil
  | _ :: _, .cons hR hRt, .cons hS hSt =>
    .cons (fun b hb => ⟨hR b hb, hS b hb⟩) (pairwise_and_aux hRt hSt)

theorem sortFields_eq_of_perm (l₁ l₂ : List JField) (hp : l₁.Perm l₂)
    (hnd : (l₁.map Prod.fst).Nodup) : sortFields l₁ = sortFields l₂ := by
  haveI : IsTotal JField fun a b => a.1 ≤ b.1 := ⟨fun a b => le_total a.1 b.1⟩
  haveI : IsTrans JField fun a b => a.1 ≤ b.1 := ⟨fun _ _ _ => le_trans⟩
  haveI : IsAntisymm JField fun a b => a.1 < b.1 :=
    ⟨fun _ _ h h' => absurd (lt_trans h h') (lt_irrefl _)⟩
  have p₁ : (sortFields l₁).Perm l₁ := List.perm_insertionSort _ l₁
  have p₂ : (sortFields l₂).Perm l₂ := List.perm_insertionSort _ l₂
  have hperm : (sortFields l₁).Perm (sortFields l₂) :=
    p₁.trans (hp.trans p₂.symm)
  have hs₁ : (sortFields l₁).Pairwise fun a b => a.1 ≤ b.1 :=
    List.sorted_insertionSort _ l₁
  have hs₂ : (sortFields l₂).Pairwise fun a b => a.1 ≤ b.1 :=
    List.sorted_insertionSort _ l₂
  have hnd₂ : (l₂.map Prod.fst).Nodup := ((hp.map Prod.fst).nodup_iff).mp hnd
  have hne₁ : (sortFields l₁).Pairwise fun a b => a.1 ≠ b.1 :=
    List.pairwise_map.mp ((p₁.map Prod.fst).nodup_iff.mpr hnd)
  have hne₂ : (sortFields l₂).Pairwise fun a b => a.1 ≠ b.1 :=
    List.pairwise_map.mp ((p₂.map Prod.fst).nodup_iff.mpr hnd₂)
  have hlt₁ : (sortFields l₁).Pairwise fun a b => a.1 < b.1 :=
    (pairwise_and_aux hs₁ hne₁).imp fun h => lt_of_le_of_ne h.1 h.2
  have hlt₂ : (sortFields l₂).Pairwise fun a b => a.1 < b.1 :=
    (pairwise_and_aux hs₂ hne₂).imp fun h => lt_of_le_of_ne h.1 h.2
  exact List.eq_of_perm_of_sorted hperm hlt₁ hlt₂

theorem canonicalJson_eq_of_perm (l₁ l₂ : List JField) (hp : l₁.Perm l₂)
    (hnd : (l₁.map Prod.fst).Nodup) : canonicalJson l₁ = canonicalJson l₂ := by
  unfold canonicalJson
  rw [sortFields_eq_of_perm l₁ l₂ hp hnd]

/-! ## Byte strings, hex codec, UTF-8 -/

/-- `str.encode("utf-8")` for the ASCII strings this protocol produces:
the list of character code points. -/
def utf8Bytes (s : String) : List ℕ := s.data.map Char.toNat

/-- `bytes.hex()` of one byte: two lowercase hex characters. -/
def byteHexChars (b : ℕ) : List Char := [hexDigitChar (b / 16 % 16), hexDigitChar (b % 16)]

/-- `bytes(l).hex()`: lowercase hex encoding of a byte string. -/
def bytesToHex (bs : List ℕ) : String := ⟨bs.flatMap byteHexChars⟩

/-- `bytes(l)` for a list of Python ints: fails (ValueError) unless every
value is in `[0, 256)`. -/
def pyBytes (l : List ℤ) : Option (List ℕ) :=
  if l.all fun v => 0 ≤ v ∧ v < 256 then some (l.map Int.toNat) else none

/-- Value of a hex digit character, accepting both cases; `none` for
non-hex characters. -/
def hexCharVal (c : Char) : Option ℕ :=
  if 48 ≤ c.toNat ∧ c.toNat ≤ 57 then some (c.toNat - 48)
  else if 97 ≤ c.toNat ∧ c.toNat ≤ 102 then some (c.toNat - 87)
  else if 65 ≤ c.toNat ∧ c.toNat ≤ 70 then some (c.toNat - 55)
  else none

/-- `bytes.fromhex` on a list of characters: consume hex-digit pairs;
fail on a non-hex character or an odd count. -/
def hexPairsToBytes : List Char → Option (List ℕ)
  | [] => some []
  | [_] => none
  | c₁ :: c₂ :: rest =>
    match hexCharVal c₁, hexCharVal c₂, hexPairsToBytes rest with
    | some h, some lo, some bs => some ((16 * h + lo) :: bs)
    | _, _, _ => none

/-- `bytes.fromhex(s)` (src/extractor.py line 41, 62). -/
def bytesFromHex (s : String) : Option (List ℕ) := hexPairsToBytes s.data

/-! ## Salt deriver and commitment hash -/

/-- Abstract model of `hashlib.sha256(bytes).hexdigest()`: a function from
byte strings to hex-digest strings, supplied as a parameter. -/
abbrev ShaFn := List ℕ → String

/-- Abstract model of `hmac.new(key, msg, hashlib.sha256).hexdigest()`. -/
abbrev HmacFn := String → String → String

/-- `_salt(secret_key, context)` (src/commit_reveal.py lines 46-48):
HMAC-SHA256 hexdigest truncated to its first 32 hex characters. -/
def saltOf (hmacHex : HmacFn) (secret ctx : String) : String :=
  strTake (hmacHex secret ctx) 32

/-- `_context(trade_date, symbol)` (src/commit_reveal.py lines 40-43), with
the exchange already resolved from `SYMBOL_EXCHANGE`/`EXCHANGE`. -/
def contextOf (dateIso sym exch : String) : String :=
  dateIso ++ "|" ++ sym ++ "|" ++ exch ++ "|close"

/-- `_hash_commit_payload(payload)` (src/commit_reveal.py lines 58-59):
SHA-256 hexdigest of the UTF-8 bytes of the canonical serialization. -/
def hashCommitPayload (sha : ShaFn) (l : List JField) : String :=
  sha (utf8Bytes (canonicalJson l))

/-! ## Legacy reconciliation resolver (`_recover_commit_price`, lines 62-116) -/

/-- The `base_payload` dict built at src/commit_reveal.py lines 178-184:
all commit-payload fields except the price and the salt. -/
structure BasePayload where
  symbol : String
  prediction : ℤ
  commit_bar_ts_et : String
  timestamp_commit_utc : String
  context : String
deriving DecidableEq

/-- The field list of `base_payload`, in source insertion order. -/
def basePayloadFields (bp : BasePayload) : List JField :=
  [("symbol", .s bp.symbol), ("prediction", .i bp.prediction),
   ("commit_bar_ts_et", .s bp.commit_bar_ts_et),
   ("timestamp_commit_utc", .s bp.timestamp_commit_utc),
   ("context", .s bp.context)]

/-- `{**base_payload, "p_commit": p, "salt": salt}`. -/
def candidatePayload (bp : BasePayload) (p : ℚ) (salt : String) : List JField :=
  basePayloadFields bp ++ [("p_commit", .price p), ("salt", .s salt)]

/-- One `_try_candidate(candidate)` step (lines 70-81): round, reject
non-positive and already-checked prices, otherwise hash the trial payload
and compare with the stored commit.  Returns the match result and the
updated memo set of checked prices. -/
def tryCandidate (sha : ShaFn) (bp : BasePayload) (salt commitHex : String)
    (checked : List ℚ) (candidate : ℚ) : Option ℚ × List ℚ :=
  let rounded := roundCommitPrice candidate
  if rounded ≤ 0 then (none, checked)
  else if rounded ∈ checked then (none, checked)
  else if hashCommitPayload sha (candidatePayload bp rounded salt) = commitHex then
    (some rounded, rounded :: checked)
  else (none, rounded :: checked)

/-- First-match search over a candidate list, threading the `checked`
memo set; the source's early `return` is the first `some`. -/
def searchCandidates (sha : ShaFn) (bp : BasePayload) (salt commitHex : String) :
    List ℚ → List ℚ → Option ℚ
  | [], _ => none
  | c :: rest, checked =>
    match tryCandidate sha bp salt commitHex checked c with
    | (some r, _) => some r
    | (none, checked') => searchCandidates sha bp salt commitHex rest checked'

/-- `steps = int(max_offset / step)` with `max_offset = 2.0` and
`step = 10 ** -COMMIT_PRICE_DECIMALS` (lines 88-90), in exact arithmetic. -/
def PROBE_STEPS : ℕ := 20000

/-- The probe-phase candidates (lines 83-96): the rounded approximate price
first, then alternating `approx + i*step`, `approx - i*step` for
`i = 1..steps`. -/
def probeCandidates (approx : ℚ) : List ℚ :=
  approx :: (List.range PROBE_STEPS).flatMap fun i =>
    [approx + (i + 1) * (1/10000), approx - (i + 1) * (1/10000)]

/-- The coarse scan (lines 98-105): `i * 0.01` for
`i = 0 .. int(2000.0/0.01)`, in exact arithmetic. -/
def coarseCandidates : List ℚ :=
  (List.range 200001).map fun (i : ℕ) => (i : ℚ) * (1/100)

/-- The fine scan (lines 107-114): `i * 0.0001` for
`i = 0 .. int(1000.0/0.0001)`, in exact arithmetic. -/
def fineCandidates : List ℚ :=
  (List.range 10000001).map fun (i : ℕ) => (i : ℚ) * (1/10000)

/-- `_recover_commit_price(base_payload, salt, commit_hex, approx_price)`
(lines 62-116).  The three phases in source order share one `checked` memo
set; the function is total (the candidate space is a finite list), which is
the model-level form of guaranteed termination. -/
def recoverCommitPrice (sha : ShaFn) (bp : BasePayload) (salt commitHex : String)
    (approx : Option ℚ) : Option ℚ :=
  let cands :=
    (match approx with
     | some a => probeCandidates (roundCommitPrice a)
     | none => []) ++ coarseCandidates ++ fineCandidates
  searchCandidates sha bp salt commitHex cands []

/-! ## Data model: commit inputs, symbol records, per-day document, log rows

Python dict fields that may be missing are `Option`s; the code only ever
tests them with truthiness (`rec.get(...)` / `or`), under which a missing
key, `None` and the empty string behave alike, so `none` stands for
"missing or falsy". -/

/-- The full `commit_inputs` payload built by `perform_commit`
(src/commit_reveal.py lines 353-360) and returned sanitized by
`_ensure_commit_inputs`. -/
structure CommitInputs where
  symbol : String
  prediction : ℤ
  p_commit : ℚ
  commit_bar_ts_et : String
  timestamp_commit_utc : String
  context : String
deriving DecidableEq

/-- A stored `commit_inputs` dict, possibly partial on legacy records. -/
structure StoredInputs where
  symbol : Option String := none
  prediction : Option ℤ := none
  p_commit : Option ℚ := none
  commit_bar_ts_et : Option String := none
  timestamp_commit_utc : Option String := none
  context : Option String := none
deriving DecidableEq

def CommitInputs.toStored (ci : CommitInputs) : StoredInputs :=
  { symbol := some ci.symbol, prediction := some ci.prediction,
    p_commit := some ci.p_commit, commit_bar_ts_et := some ci.commit_bar_ts_et,
    timestamp_commit_utc := some ci.timestamp_commit_utc, context := some ci.context }

/-- The payload fields shared by all trial payloads. -/
def CommitInputs.base (ci : CommitInputs) : BasePayload :=
  { symbol := ci.symbol, prediction := ci.prediction,
    commit_bar_ts_et := ci.commit_bar_ts_et,
    timestamp_commit_utc := ci.timestamp_commit_utc, context := ci.context }

/-- The `commit_inputs` dict in its insertion order at lines 353-360. -/
def CommitInputs.fields (ci : CommitInputs) : List JField :=
  [("symbol", .s ci.symbol), ("prediction", .i ci.prediction),
   ("p_commit", .price ci.p_commit),
   ("commit_bar_ts_et", .s ci.commit_bar_ts_et),
   ("timestamp_commit_utc", .s ci.timestamp_commit_utc),
   ("context", .s ci.context)]

/-- `{**commit_inputs, "salt": s}` (line 361). -/
def commitPayloadFields (ci : CommitInputs) (salt : String) : List JField :=
  ci.fields ++ [("salt", .s salt)]

/-- A Symbol Record of the per-day document. -/
structure Rec where
  symbol : String
  commit : Option String := none
  commit_bar_ts_et : Option String := none
  committed_at_utc : Option String := none
  commit_inputs : Option StoredInputs := none
  prediction : Option ℤ := none
  salt : Option String := none
  outcome : Option ℤ := none
  symbol_bits : Option String := none
  close_prev : Option ℚ := none
  close_today : Option ℚ := none
  provider : Option String := none
  tie : Option Bool := none
  context : Option String := none
  p_commit : Option ℚ := none
  p_reveal : Option ℚ := none
  delta : Option ℚ := none
  sign_bit : Option ℤ := none
  mag_q : Option ℤ := none
  symbol_bytes_hex : Option String := none
  revealed_at_utc : Option String := none
deriving DecidableEq

/-- The per-day JSON document. -/
structure Doc where
  date : String
  symbols : List Rec
  meta_generated_at_utc : String := ""
  meta_code_commit : String := ""
deriving DecidableEq

/-- `_symbol_lookup(symbols, symbol)` (lines 238-243). -/
def symbolLookup (symbols : List Rec) (sym : String) : Option Rec :=
  symbols.find? fun r => r.symbol == sym

/-- In-place mutation of the record object found by `_symbol_lookup`:
replace the first record with the given symbol. -/
def updateFirst : List Rec → String → Rec → List Rec
  | [], _, _ => []
  | x :: rest, sym, r =>
    if x.symbol == sym then r :: rest else x :: updateFirst rest sym r

/-- One row of the entropy CSV, in the column schema of
`_ensure_header_csv` (lines 248-252). -/
structure Row where
  date : String
  symbol : String
  prediction : Option ℤ
  outcome : Option ℤ
  symbol_bits : Option String
  commit : Option String
  context : Option String
  salt : Option String
  close_prev : Option ℚ
  close_today : Option ℚ
  provider : Option String
  tie : Option Bool
  p_commit : Option ℚ
  p_reveal : Option ℚ
  commit_bar_ts_et : Option String
  delta : Option ℚ
  sign_bit : Option ℤ
  mag_q : Option ℤ
  symbol_bytes_hex : Option String
deriving DecidableEq

/-- `_append_entropy_csv(trade_date, rec)` (lines 276-301): the row written
for a record. -/
def rowOf (dateIso : String) (r : Rec) : Row :=
  { date := dateIso, symbol := r.symbol, prediction := r.prediction,
    outcome := r.outcome, symbol_bits := r.symbol_bits, commit := r.commit,
    context := r.context, salt := r.salt, close_prev := r.close_prev,
    close_today := r.close_today, provider := r.provider, tie := r.tie,
    p_commit := r.p_commit, p_reveal := r.p_reveal,
    commit_bar_ts_et := r.commit_bar_ts_et, delta := r.delta,
    sign_bit := r.sign_bit, mag_q := r.mag_q,
    symbol_bytes_hex := r.symbol_bytes_hex }

/-! ## Configuration (src/config.py) -/

/-- The configuration values the core reads. -/
structure Config where
  symbols : List String
  exchange : String
  symbolExchange : String → Option String
  provider : String

/-- `getattr(config, "SYMBOL_EXCHANGE", {}).get(symbol, config.EXCHANGE)`
(line 42). -/
def Config.exchangeOf (cfg : Config) (sym : String) : String :=
  (cfg.symbolExchange sym).getD cfg.exchange

/-- The concrete values of src/config.py. -/
def defaultConfig : Config where
  symbols := ["SPY", "AAPL"]
  exchange := "NYSE"
  symbolExchange := fun s =>
    if s = "SPY" then some "NYSE" else if s = "AAPL" then some "NASDAQ" else none
  provider := "yfinance"

/-! ## Commit engine (`perform_commit`, lines 304-381)

External collaborators (market data, predictor, wall clock, environment)
are supplied through an environment value; the window check
`_within_window(now, date, ...)` is carried as its boolean outcome, since
time-zone-localized wall-clock arithmetic is outside the core. -/

/-- Collaborator outcomes seen by one `perform_commit` invocation. -/
structure CommitEnv where
  cfg : Config
  sha : ShaFn
  hmacHex : HmacFn
  isTradingDay : Bool
  withinWindow : Bool
  secret : Option String
  minuteBar : String → Option (ℚ × String)
  predict : String → ℤ
  nowUtcIso : String
  tradeDateIso : String
  metaGeneratedAt : String
  codeCommit : String

/-- The per-symbol body of the commit loop (lines 334-374). -/
def commitSymbol (env : CommitEnv) (secret : String) (doc : Doc) (sym : String) :
    Doc × Bool :=
  let existing := symbolLookup doc.symbols sym
  if (match existing with | some r => r.commit.isSome | none => false) then
    (doc, false)
  else
    match env.minuteBar sym with
    | none => (doc, false)
    | some (pCommit, barTs) =>
      let ctx := contextOf env.tradeDateIso sym (env.cfg.exchangeOf sym)
      let P := env.predict sym
      let s := saltOf env.hmacHex secret ctx
      let commitTs := env.nowUtcIso
      let pVal := roundCommitPrice pCommit
      let ci : CommitInputs :=
        { symbol := sym, prediction := P, p_commit := pVal,
          commit_bar_ts_et := barTs, timestamp_commit_utc := commitTs,
          context := ctx }
      let C := hashCommitPayload env.sha (commitPayloadFields ci s)
      let rec0 : Rec := (symbolLookup doc.symbols sym).getD { symbol := sym }
      let rec' := { rec0 with
        commit := some C, commit_bar_ts_et := some barTs,
        committed_at_utc := some commitTs,
        commit_inputs := some ci.toStored }
      let symbols' :=
        if (symbolLookup doc.symbols sym).isSome then
          updateFirst doc.symbols sym rec'
        else doc.symbols ++ [rec']
      ({ doc with symbols := symbols' }, true)

/-- The commit loop over `config.SYMBOLS`. -/
def commitLoop (env : CommitEnv) (secret : String) :
    List String → Doc → Bool → Doc × Bool
  | [], doc, changed => (doc, changed)
  | sym :: rest, doc, changed =>
    let (doc', ch) := commitSymbol env secret doc sym
    commitLoop env secret rest doc' (changed || ch)

/-- `perform_commit(trade_date, enforce_window)` (lines 304-381), acting on
the per-day document file (`none` = file absent or empty).  Returns the
resulting file state and the changed flag; a missing secret raises. -/
def performCommit (env : CommitEnv) (enforceWindow : Bool) (fsDaily : Option Doc) :
    Except String (Option Doc × Bool) :=
  if !env.isTradingDay then .ok (fsDaily, false)
  else if enforceWindow && !env.withinWindow then .ok (fsDaily, false)
  else
    match env.secret with
    | none => .error "Missing secret env var"
    | some secret =>
      let doc : Doc :=
        match fsDaily with
        | some d => d
        | none =>
          { date := env.tradeDateIso, symbols := [],
            meta_generated_at_utc := env.metaGeneratedAt,
            meta_code_commit := env.codeCommit }
      let (doc', changed) := commitLoop env secret env.cfg.symbols doc false
      if changed then .ok (some doc', true) else .ok (fsDaily, false)

/-! ## Reveal engine (`perform_reveal`, lines 384-457) and
`_ensure_commit_inputs` (lines 119-204) -/

/-- Collaborator outcomes seen by one `perform_reveal` invocation. -/
structure RevealEnv where
  cfg : Config
  sha : ShaFn
  hmacHex : HmacFn
  isTradingDay : Bool
  withinWindow : Bool
  secret : Option String
  prevToday : String → Option ℚ × Option ℚ
  predictGuess : String → ℤ
  priceAtBar : String → String → Option ℚ
  nowUtcIso : String
  tradeDateIso : String
  fallbackBarTs : String

/-- The deduplicating build of `prediction_candidates` (lines 137-151):
the stored prediction first, then the fresh guess, `0` and `1`, each
appended only if not already present.  The final `[0, 1]` fallback for an
empty list is kept from the source although the list is never empty. -/
def predictionCandidates (stored : Option ℤ) (guess : ℤ) : List ℤ :=
  let l₀ : List ℤ := match stored with | some p => [p] | none => []
  let l₁ := if guess ∈ l₀ then l₀ else l₀ ++ [guess]
  let l₂ := if (0 : ℤ) ∈ l₁ then l₁ else l₁ ++ [0]
  let l₃ := if (1 : ℤ) ∈ l₂ then l₂ else l₂ ++ [1]
  if l₃ = [] then [0, 1] else l₃

/-- The loop over prediction candidates (lines 177-204): for each, first
try the stored price verbatim, then run the bounded search; on exhaustion
raise the unreconcilable error. -/
def ensureLoop (sha : ShaFn) (salt commitHex ctx barTs storedTs sym : String)
    (storedPrice approx : Option ℚ) (rec : Rec) :
    List ℤ → Except String (CommitInputs × Rec)
  | [] => .error ("Unable to reconcile commit payload for " ++ sym)
  | pred :: rest =>
    let bp : BasePayload :=
      { symbol := sym, prediction := pred, commit_bar_ts_et := barTs,
        timestamp_commit_utc := storedTs, context := ctx }
    let viaStored : Option ℚ :=
      match storedPrice with
      | some sp =>
        let rounded := roundCommitPrice sp
        if hashCommitPayload sha (candidatePayload bp rounded salt) = commitHex
        then some rounded else none
      | none => none
    match viaStored with
    | some rounded =>
      let ci : CommitInputs :=
        { symbol := sym, prediction := pred, p_commit := rounded,
          commit_bar_ts_et := barTs, timestamp_commit_utc := storedTs,
          context := ctx }
      .ok (ci, { rec with commit_inputs := some ci.toStored })
    | none =>
      match recoverCommitPrice sha bp salt commitHex approx with
      | some r =>
        let ci : CommitInputs :=
          { symbol := sym, prediction := pred, p_commit := r,
            commit_bar_ts_et := barTs, timestamp_commit_utc := storedTs,
            context := ctx }
        .ok (ci, { rec with commit_inputs := some ci.toStored })
      | none => ensureLoop sha salt commitHex ctx barTs storedTs sym
          storedPrice approx rec rest

/-- `_ensure_commit_inputs(rec, sym, trade_date, secret_bytes)`
(lines 119-204): obtain a verified full commit payload for the record,
memoizing it back into the record. -/
def ensureCommitInputs (env : RevealEnv) (secret : String) (rec : Rec)
    (sym : String) : Except String (CommitInputs × Rec) :=
  match rec.commit with
  | none => .error ("Missing commit for " ++ sym)
  | some commitHex =>
    let ctx := contextOf env.tradeDateIso sym (env.cfg.exchangeOf sym)
    let existing := rec.commit_inputs
    let storedTs :=
      ((existing >>= StoredInputs.timestamp_commit_utc) <|> rec.committed_at_utc).getD ""
    let barTs :=
      ((existing >>= StoredInputs.commit_bar_ts_et) <|> rec.commit_bar_ts_et).getD
        env.fallbackBarTs
    let guess := env.predictGuess sym
    let predCands := predictionCandidates (existing >>= StoredInputs.prediction) guess
    let approx : Option ℚ :=
      (existing >>= StoredInputs.p_commit) <|> env.priceAtBar sym barTs
    let salt := saltOf env.hmacHex secret ctx
    let storedPrice := existing >>= StoredInputs.p_commit
    ensureLoop env.sha salt commitHex ctx barTs storedTs sym storedPrice approx
      rec predCands

/-- The verification and outcome computation after `_ensure_commit_inputs`
has returned (src/commit_reveal.py lines 414-452): re-round the price,
re-derive the salt, recompute the digest, compare with the stored commit,
then compute the outcome fields, update the record and produce the entropy
row. -/
def verifyReveal (env : RevealEnv) (secret : String) (doc : Doc) (sym : String)
    (rec : Rec) (prevClose todayClose : ℚ) (ci : CommitInputs) (rec1 : Rec) :
    Except String (Option (Doc × Row)) :=
  let ctx := ci.context
  let P := ci.prediction
  let barTs := ci.commit_bar_ts_et
  let pVal := roundCommitPrice ci.p_commit
  let ci' := { ci with p_commit := pVal }
  let rec2 := { rec1 with commit_inputs := some ci'.toStored }
  let s := saltOf env.hmacHex secret ctx
  let Cexpected := hashCommitPayload env.sha (candidatePayload ci'.base pVal s)
  if rec.commit ≠ some Cexpected then
    .error ("Commit mismatch for " ++ sym)
  else
    let O : ℤ := if todayClose > prevClose then 1 else 0
    let bits := String.mk (intChars P) ++ String.mk (intChars O)
    let tie : Bool := todayClose == prevClose
    let delta := todayClose - pVal
    let signBit : ℤ := if delta > 0 then 1 else 0
    let magQ : ℤ := pyMin (pyInt (ratAbs delta * 100)) 255
    match pyBytes [P, O, signBit, magQ] with
    | none => .error "bytes value out of range"
    | some bs =>
      let hexStr := bytesToHex bs
      let rec3 := { rec2 with
        prediction := some P, salt := some s, outcome := some O,
        symbol_bits := some bits, close_prev := some prevClose,
        close_today := some todayClose, provider := some env.cfg.provider,
        tie := some tie, context := some ctx, p_commit := some pVal,
        p_reveal := some todayClose, commit_bar_ts_et := some barTs,
        delta := some delta, sign_bit := some signBit, mag_q := some magQ,
        symbol_bytes_hex := some hexStr,
        revealed_at_utc := some env.nowUtcIso }
      let doc' := { doc with symbols := updateFirst doc.symbols sym rec3 }
      .ok (some (doc', rowOf env.tradeDateIso rec3))

/-- The per-symbol body of the reveal loop (lines 404-453): `none` means
the symbol was skipped; otherwise the updated document and the appended
entropy row are returned. -/
def revealSymbol (env : RevealEnv) (secret : String) (doc : Doc) (sym : String) :
    Except String (Option (Doc × Row)) :=
  match symbolLookup doc.symbols sym with
  | none => .ok none
  | some rec =>
    if rec.commit.isNone then .ok none
    else if rec.revealed_at_utc.isSome then .ok none
    else
      match env.prevToday sym with
      | (some prevClose, some todayClose) =>
        match ensureCommitInputs env secret rec sym with
        | .error e => .error e
        | .ok (ci, rec1) =>
          verifyReveal env secret doc sym rec prevClose todayClose ci rec1
      | _ => .ok none

/-- Outcome of the reveal loop: the final in-memory document, the CSV rows
appended during this invocation, and the changed flag — or the raised
error together with the rows appended before it. -/
inductive RevealOutcome where
  | ok (doc : Doc) (rows : List Row) (changed : Bool)
  | err (rows : List Row) (msg : String)
deriving DecidableEq

/-- The reveal loop over `config.SYMBOLS`.  The entropy CSV is appended to
per symbol inside the loop, while the document is saved only after it. -/
def revealLoop (env : RevealEnv) (secret : String) :
    List String → Doc → List Row → Bool → RevealOutcome
  | [], doc, rows, changed => .ok doc rows changed
  | sym :: rest, doc, rows, changed =>
    match revealSymbol env secret doc sym with
    | .error msg => .err rows msg
    | .ok none => revealLoop env secret rest doc rows changed
    | .ok (some (doc', row)) => revealLoop env secret rest doc' (rows ++ [row]) true

/-- The persistent state touched by the reveal: the per-day document file
and the entropy CSV. -/
structure FS where
  daily : Option Doc
  csv : List Row
deriving DecidableEq

/-- `perform_reveal(trade_date, enforce_window)` (lines 384-457).  On an
uncaught exception the document is not saved; the CSV keeps the rows of
the symbols already completed. -/
def performReveal (env : RevealEnv) (enforceWindow : Bool) (fs : FS) :
    FS × Except String Bool :=
  if !env.isTradingDay then (fs, .ok false)
  else if enforceWindow && !env.withinWindow then (fs, .ok false)
  else
    match env.secret with
    | none => (fs, .error "Missing secret env var")
    | some secret =>
      match fs.daily with
      | none => (fs, .ok false)
      | some doc =>
        match revealLoop env secret env.cfg.symbols doc [] false with
        | .ok doc' rows changed =>
          ({ daily := if changed then some doc' else fs.daily,
             csv := fs.csv ++ rows }, .ok changed)
        | .err rows msg =>
          ({ daily := fs.daily, csv := fs.csv ++ rows }, .error msg)

/-! ## Entropy extractor (src/extractor.py)

The extractor reads the entropy CSV back through `csv.DictReader`, so each
field is a string (possibly empty).  `hasBytesCol` is whether
`symbol_bytes_hex` appears in the header's field names. -/

/-- A row of the entropy log as seen by the extractor. -/
structure LogRow where
  symbol_bits : String := ""
  symbol_bytes_hex : String := ""
deriving DecidableEq

/-- The entropy log as seen by the extractor. -/
structure EntropyLog where
  hasBytesCol : Bool
  rows : List LogRow
deriving Inhabited

/-- Python's trailing slice `l[-window:]` for a nonnegative `window`:
everything when `window = 0` (since `-0 == 0`), otherwise the last
`window` elements. -/
def lastWindow {α : Type _} (window : ℕ) (l : List α) : List α :=
  if window = 0 then l else l.drop (l.length - window)

/-- The non-empty `symbol_bits` entries of the log, in log order
(`[r.get("symbol_bits", "") for r in rows if r.get("symbol_bits")]`). -/
def bitEntries (log : EntropyLog) : List String :=
  (log.rows.map LogRow.symbol_bits).filter (· ≠ "")

/-- The non-empty `symbol_bytes_hex` entries of the log, in log order. -/
def byteEntries (log : EntropyLog) : List String :=
  (log.rows.map LogRow.symbol_bytes_hex).filter (· ≠ "")

/-- `_collect_bits(window)` (src/extractor.py lines 25-29): the trailing
`window` non-empty `symbol_bits` strings, concatenated. -/
def collectBits (window : ℕ) (log : EntropyLog) : String :=
  String.join (lastWindow window (bitEntries log))

/-- `_collect_bytes(window)` (src/extractor.py lines 32-43): `none` when the
column is absent, no non-empty entry remains, or hex decoding fails;
otherwise the concatenation of the decoded trailing entries. -/
def collectBytes (window : ℕ) (log : EntropyLog) : Option (List ℕ) :=
  if !log.hasBytesCol then none
  else
    let hexList := lastWindow window (byteEntries log)
    if hexList = [] then none
    else
      match (hexList.filter (· ≠ "")).mapM bytesFromHex with
      | some bss => some bss.flatten
      | none => none

/-- One character of the check
`all(c in "0123456789abcdef" for c in seed_value.lower())`. -/
def isLowerHexAfterLower (c : Char) : Bool :=
  let lc := c.toLower
  (48 ≤ lc.toNat && lc.toNat ≤ 57) || (97 ≤ lc.toNat && lc.toNat ≤ 102)

/-- `_seed_bytes(seed_value)` (src/extractor.py lines 59-65): decode from
hex when the value is even-length hexadecimal, else take its UTF-8 text
bytes (the `except` fallback is unreachable but kept). -/
def seedBytesOf (seed : String) : List ℕ :=
  if seed.data.all isLowerHexAfterLower && seed.length % 2 == 0 then
    match bytesFromHex seed with
    | some bs => bs
    | none => utf8Bytes seed
  else utf8Bytes seed

/-- `extract_randomness_from_bytes(symbol_bytes, seed_value, out_bits)`
(src/extractor.py lines 68-72). -/
def extractRandomnessFromBytes (sha : ShaFn) (symbolBytes : List ℕ)
    (seedValue : String) (outBits : ℕ) : String :=
  strTake (sha (seedBytesOf seedValue ++ symbolBytes)) (outBits / 4)

/-- `extract_randomness(bits_concat, seed_value, out_bits)`
(src/extractor.py lines 75-79). -/
def extractRandomness (sha : ShaFn) (bitsConcat : String)
    (seedValue : String) (outBits : ℕ) : String :=
  strTake (sha (seedBytesOf seedValue ++ utf8Bytes bitsConcat)) (outBits / 4)

/-- The hash input chosen by `run_for_date` (src/extractor.py lines 93-98). -/
inductive ExtractInput where
  | bytes (bs : List ℕ)
  | bits (s : String)
deriving DecidableEq

/-- `run_for_date`'s input selection: the byte stream when `_collect_bytes`
returned a truthy (non-`None`, non-empty) value, else the legacy bit
string. -/
def extractionInput (window : ℕ) (log : EntropyLog) : ExtractInput :=
  match collectBytes window log with
  | some bs => if bs.isEmpty then .bits (collectBits window log) else .bytes bs
  | none => .bits (collectBits window log)

/-- The extractor output for the chosen input. -/
def runExtract (sha : ShaFn) (window outBits : ℕ) (log : EntropyLog)
    (seedValue : String) : String :=
  match extractionInput window log with
  | .bytes bs => extractRandomnessFromBytes sha bs seedValue outBits
  | .bits s => extractRandomness sha s seedValue outBits

/-! ## Grid and rounding lemmas -/

theorem ratFloor_intCast (n : ℤ) : ratFloor (n : ℚ) = n := by
  rw [ratFloor_eq, Int.floor_intCast]

theorem pyRound_intCast (n : ℤ) : pyRound (n : ℚ) = n := by
  unfold pyRound
  rw [ratFloor_intCast]
  simp

theorem roundCommitPrice_of_grid (q : ℚ) (n : ℤ) (h : q * 10000 = (n : ℚ)) :
    roundCommitPrice q = q := by
  unfold roundCommitPrice
  rw [h, pyRound_intCast, ← h]
  field_simp

/-- The output of `_round_commit_price` always lies on the 4-decimal grid. -/
theorem roundCommitPrice_grid (q : ℚ) :
    roundCommitPrice q * 10000 = ((pyRound (q * 10000) : ℤ) : ℚ) := by
  unfold roundCommitPrice
  field_simp

theorem roundCommitPrice_idem (q : ℚ) :
    roundCommitPrice (roundCommitPrice q) = roundCommitPrice q :=
  roundCommitPrice_of_grid _ _ (roundCommitPrice_grid q)

theorem onGrid_iff (q : ℚ) : onGrid q ↔ ∃ n : ℤ, q * 10000 = (n : ℚ) := by
  constructor
  · intro h; exact ⟨ratFloor (q * 10000), h.symm⟩
  · rintro ⟨n, hn⟩; unfold onGrid; rw [hn, ratFloor_intCast]

theorem roundCommitPrice_eq_self (q : ℚ) (h : onGrid q) :
    roundCommitPrice q = q := by
  obtain ⟨n, hn⟩ := (onGrid_iff q).mp h
  exact roundCommitPrice_of_grid q n hn

theorem roundCommitPrice_onGrid (q : ℚ) : onGrid (roundCommitPrice q) :=
  (onGrid_iff _).mpr ⟨pyRound (q * 10000), roundCommitPrice_grid q⟩

/-! ## Equality of the two payload constructions

`perform_commit` hashes `{**commit_inputs, "salt": s}` (price third);
`_ensure_commit_inputs` and `perform_reveal` hash
`{**base_payload, "p_commit": p, "salt": salt}` (price sixth).  The
canonical codec sorts keys, so both serialize identically. -/

theorem payloadFields_perm (ci : CommitInputs) (salt : String) :
    (commitPayloadFields ci salt).Perm (candidatePayload ci.base ci.p_commit salt) := by
  unfold commitPayloadFields CommitInputs.fields candidatePayload
    basePayloadFields CommitInputs.base
  exact .cons _ (.cons _ List.perm_middle.symm)

theorem commitPayloadFields_keys_nodup (ci : CommitInputs) (salt : String) :
    ((commitPayloadFields ci salt).map Prod.fst).Nodup := by
  have h : (commitPayloadFields ci salt).map Prod.fst =
      ["symbol", "prediction", "p_commit", "commit_bar_ts_et",
       "timestamp_commit_utc", "context", "salt"] := rfl
  rw [h]
  decide

theorem hashCommitPayload_commit_eq_candidate (sha : ShaFn) (ci : CommitInputs)
    (salt : String) :
    hashCommitPayload sha (commitPayloadFields ci salt)
      = hashCommitPayload sha (candidatePayload ci.base ci.p_commit salt) := by
  unfold hashCommitPayload
  rw [canonicalJson_eq_of_perm _ _ (payloadFields_perm ci salt)
    (commitPayloadFields_keys_nodup ci salt)]

/-! ## Soundness and completeness of the bounded search -/

theorem tryCandidate_some (sha : ShaFn) (bp : BasePayload)
    (salt commitHex : String) (checked : List ℚ) (c r : ℚ) (ch' : List ℚ)
    (h : tryCandidate sha bp salt commitHex checked c = (some r, ch')) :
    r = roundCommitPrice c ∧ 0 < r ∧
      hashCommitPayload sha (candidatePayload bp r salt) = commitHex := by
  simp only [tryCandidate] at h
  split_ifs at h with h₁ h₂ h₃
  · simp at h
  · simp at h
  · injection h with ha hb
    injection ha with ha
    subst ha
    exact ⟨rfl, not_le.mp h₁, h₃⟩
  · simp at h

theorem searchCandidates_some (sha : ShaFn) (bp : BasePayload)
    (salt commitHex : String) :
    ∀ (cands checked : List ℚ) (r : ℚ),
      searchCandidates sha bp salt commitHex cands checked = some r →
      (∃ c ∈ cands, r = roundCommitPrice c) ∧ 0 < r ∧
        hashCommitPayload sha (candidatePayload bp r salt) = commitHex
  | [], _, r, h => by simp [searchCandidates] at h
  | c :: rest, checked, r, h => by
    unfold searchCandidates at h
    rcases he : tryCandidate sha bp salt commitHex checked c with ⟨res, ch'⟩
    rw [he] at h
    match res, h with
    | some r', h =>
      simp only at h
      obtain ⟨h₁, h₂, h₃⟩ := tryCandidate_some sha bp salt commitHex checked c r' ch' he
      cases h
      exact ⟨⟨c, List.mem_cons_self c rest, h₁⟩, h₂, h₃⟩
    | none, h =>
      simp only at h
      obtain ⟨⟨c', hc', h₁⟩, h₂, h₃⟩ :=
        searchCandidates_some sha bp salt commitHex rest ch' r h
      exact ⟨⟨c', List.mem_cons_of_mem c hc', h₁⟩, h₂, h₃⟩

theorem searchCandidates_isSome (sha : ShaFn) (bp : BasePayload)
    (salt commitHex : String) :
    ∀ (cands checked : List ℚ),
      (∀ x ∈ checked,
        hashCommitPayload sha (candidatePayload bp x salt) ≠ commitHex) →
      (∃ c ∈ cands, 0 < roundCommitPrice c ∧
        hashCommitPayload sha (candidatePayload bp (roundCommitPrice c) salt)
          = commitHex) →
      (searchCandidates sha bp salt commitHex cands checked).isSome
  | [], _, _, hex => by simp at hex
  | c :: rest, checked, hinv, hex => by
    simp only [searchCandidates, tryCandidate]
    split_ifs with h₁ h₂ h₃ <;> dsimp only
    · refine searchCandidates_isSome sha bp salt commitHex rest checked hinv ?_
      obtain ⟨c', hc', hpos, hmatch⟩ := hex
      rcases List.mem_cons.mp hc' with rfl | hc'
      · exact absurd h₁ (not_le.mpr hpos)
      · exact ⟨c', hc', hpos, hmatch⟩
    · refine searchCandidates_isSome sha bp salt commitHex rest checked hinv ?_
      obtain ⟨c', hc', hpos, hmatch⟩ := hex
      rcases List.mem_cons.mp hc' with rfl | hc'
      · exact absurd hmatch (hinv _ h₂)
      · exact ⟨c', hc', hpos, hmatch⟩
    · rfl
    · refine searchCandidates_isSome sha bp salt commitHex rest
        (roundCommitPrice c :: checked) ?_ ?_
      · intro x hx
        rcases List.mem_cons.mp hx with rfl | hx
        · exact h₃
        · exact hinv x hx
      · obtain ⟨c', hc', hpos, hmatch⟩ := hex
        rcases List.mem_cons.mp hc' with rfl | hc'
        · exact absurd hmatch h₃
        · exact ⟨c', hc', hpos, hmatch⟩

theorem mem_probeCandidates (a c : ℚ) (h : c ∈ probeCandidates a) :
    c = a ∨ ∃ i : ℕ, i < PROBE_STEPS ∧
      (c = a + (i + 1) * (1/10000) ∨ c = a - (i + 1) * (1/10000)) := by
  rcases List.mem_cons.mp h with rfl | h'
  · exact .inl rfl
  · obtain ⟨i, hi, hc⟩ := List.mem_flatMap.mp h'
    rw [List.mem_range] at hi
    rcases List.mem_cons.mp hc with rfl | hc'
    · exact .inr ⟨i, hi, .inl rfl⟩
    · rw [List.mem_singleton] at hc'
      exact .inr ⟨i, hi, .inr hc'⟩

theorem probeCandidates_bound (a c : ℚ) (h : c ∈ probeCandidates a) :
    |c - a| ≤ 2 := by
  rcases mem_probeCandidates a c h with rfl | ⟨i, hi, hc⟩
  · simp
  · have hb : ((i : ℚ) + 1) * (1/10000) ≤ 2 := by
      have h1 : (i : ℚ) ≤ 19999 := by exact_mod_cast Nat.lt_succ_iff.mp hi
      linarith
    have hpos : (0:ℚ) ≤ ((i : ℚ) + 1) * (1/10000) := by positivity
    rcases hc with rfl | rfl
    · rw [show a + ((i : ℚ) + 1) * (1/10000) - a = ((i : ℚ) + 1) * (1/10000) by ring,
        abs_of_nonneg hpos]
      exact hb
    · rw [show a - ((i : ℚ) + 1) * (1/10000) - a = -(((i : ℚ) + 1) * (1/10000)) by ring,
        abs_neg, abs_of_nonneg hpos]
      exact hb

theorem probeCandidates_onGrid (a c : ℚ) (hg : onGrid a)
    (h : c ∈ probeCandidates a) : onGrid c := by
  obtain ⟨n, hn⟩ := (onGrid_iff a).mp hg
  rcases mem_probeCandidates a c h with rfl | ⟨i, _, hc⟩
  · exact hg
  · rcases hc with rfl | rfl
    · refine (onGrid_iff _).mpr ⟨n + (i + 1), ?_⟩
      push_cast
      rw [add_mul, hn]
      ring
    · refine (onGrid_iff _).mpr ⟨n - (i + 1), ?_⟩
      push_cast
      rw [sub_mul, hn]
      ring

theorem coarseCandidates_mem (c : ℚ) (h : c ∈ coarseCandidates) :
    0 ≤ c ∧ c ≤ 2000 ∧ onGrid c := by
  obtain ⟨i, hi, rfl⟩ := List.mem_map.mp h
  rw [List.mem_range] at hi
  refine ⟨by positivity, ?_, (onGrid_iff _).mpr ⟨(i : ℤ) * 100, ?_⟩⟩
  · have h1 : (i : ℚ) ≤ 200000 := by exact_mod_cast Nat.lt_succ_iff.mp hi
    linarith
  · push_cast; ring

theorem fineCandidates_mem (c : ℚ) (h : c ∈ fineCandidates) :
    0 ≤ c ∧ c ≤ 1000 ∧ onGrid c := by
  obtain ⟨i, hi, rfl⟩ := List.mem_map.mp h
  rw [List.mem_range] at hi
  refine ⟨by positivity, ?_, (onGrid_iff _).mpr ⟨(i : ℤ), ?_⟩⟩
  · have h1 : (i : ℚ) ≤ 10000000 := by exact_mod_cast Nat.lt_succ_iff.mp hi
    linarith
  · push_cast; ring

theorem fineCandidates_contains (q : ℚ) (hpos : 0 < q) (hg : onGrid q)
    (hle : q ≤ 1000) : q ∈ fineCandidates := by
  obtain ⟨n, hn⟩ := (onGrid_iff q).mp hg
  have hn0 : (0:ℚ) < (n : ℚ) := by rw [← hn]; positivity
  have hn0' : 0 < n := by exact_mod_cast hn0
  have hnle : (n : ℚ) ≤ 10000000 := by rw [← hn]; linarith
  have hnle' : n ≤ 10000000 := by exact_mod_cast hnle
  refine List.mem_map.mpr ⟨n.toNat, List.mem_range.mpr (by omega), ?_⟩
  have hq : q = (n : ℚ) / 10000 := by field_simp at hn ⊢; linarith
  have hcast : ((n.toNat : ℕ) : ℚ) = (n : ℚ) := by
    exact_mod_cast Int.toNat_of_nonneg hn0'.le
  rw [hq, hcast]
  ring

/-- Soundness of `_recover_commit_price`: every returned price is strictly
positive, canonically rounded, hashes to the stored commit, and arises
from one of the three bounded candidate phases. -/
theorem recoverCommitPrice_sound (sha : ShaFn) (bp : BasePayload)
    (salt commitHex : String) (approx : Option ℚ) (r : ℚ)
    (h : recoverCommitPrice sha bp salt commitHex approx = some r) :
    0 < r ∧ roundCommitPrice r = r ∧
      hashCommitPayload sha (candidatePayload bp r salt) = commitHex ∧
      ((∃ a, approx = some a ∧ |r - roundCommitPrice a| ≤ 2) ∨
        r ≤ 2000 ∨ r ≤ 1000) := by
  unfold recoverCommitPrice at h
  obtain ⟨⟨c, hc, hr⟩, hpos, hmatch⟩ :=
    searchCandidates_some sha bp salt commitHex _ _ r h
  simp only [List.mem_append] at hc
  rcases hc with (hc | hc) | hc
  · have ha : ∃ a, approx = some a ∧ c ∈ probeCandidates (roundCommitPrice a) := by
      rcases approx with _ | a
      · simp at hc
      · exact ⟨a, rfl, by simpa using hc⟩
    obtain ⟨a, rfl, hmem⟩ := ha
    have hg := probeCandidates_onGrid _ _ (roundCommitPrice_onGrid a) hmem
    have hrc : r = c := by rw [hr, roundCommitPrice_eq_self c hg]
    refine ⟨hpos, by rw [hr, roundCommitPrice_idem], hmatch, .inl ⟨a, rfl, ?_⟩⟩
    rw [hrc]
    exact probeCandidates_bound _ _ hmem
  · obtain ⟨_, hle, hg⟩ := coarseCandidates_mem c hc
    have hrc : r = c := by rw [hr, roundCommitPrice_eq_self c hg]
    exact ⟨hpos, by rw [hr, roundCommitPrice_idem], hmatch, .inr (.inl (hrc ▸ hle))⟩
  · obtain ⟨_, hle, hg⟩ := fineCandidates_mem c hc
    have hrc : r = c := by rw [hr, roundCommitPrice_eq_self c hg]
    exact ⟨hpos, by rw [hr, roundCommitPrice_idem], hmatch, .inr (.inr (hrc ▸ hle))⟩

/-- Completeness of `_recover_commit_price` under a collision-free digest:
a positive on-grid preimage `p₀ ≤ 1000` is found exactly (the fine scan
enumerates the full grid up to 1000, whatever the approximation). -/
theorem recoverCommitPrice_finds (sha : ShaFn) (bp : BasePayload)
    (salt commitHex : String) (approx : Option ℚ) (p₀ : ℚ)
    (hpos : 0 < p₀) (hg : onGrid p₀) (hle : p₀ ≤ 1000)
    (hmatch : hashCommitPayload sha (candidatePayload bp p₀ salt) = commitHex)
    (huniq : ∀ q, 0 < q → roundCommitPrice q = q →
      hashCommitPayload sha (candidatePayload bp q salt) = commitHex → q = p₀) :
    recoverCommitPrice sha bp salt commitHex approx = some p₀ := by
  have hsome : (recoverCommitPrice sha bp salt commitHex approx).isSome := by
    unfold recoverCommitPrice
    refine searchCandidates_isSome sha bp salt commitHex _ [] (by simp) ?_
    refine ⟨p₀, ?_, ?_, ?_⟩
    · simp only [List.mem_append]
      exact .inr (fineCandidates_contains p₀ hpos hg hle)
    · rwa [roundCommitPrice_eq_self p₀ hg]
    · rwa [roundCommitPrice_eq_self p₀ hg]
  obtain ⟨r, hr⟩ := Option.isSome_iff_exists.mp hsome
  obtain ⟨hpos', hround, hmatch', _⟩ :=
    recoverCommitPrice_sound sha bp salt commitHex approx r hr
  rw [hr, huniq r hpos' hround hmatch']

/-- Clean failure of `_recover_commit_price` when the only possible
preimage lies outside every configured ceiling. -/
theorem recoverCommitPrice_fails (sha : ShaFn) (bp : BasePayload)
    (salt commitHex : String) (approx : Option ℚ) (p₀ : ℚ)
    (huniq : ∀ q, 0 < q → roundCommitPrice q = q →
      hashCommitPayload sha (candidatePayload bp q salt) = commitHex → q = p₀)
    (hbig : 2000 < p₀)
    (happ : ∀ a, approx = some a → roundCommitPrice a + 2 < p₀) :
    recoverCommitPrice sha bp salt commitHex approx = none := by
  rcases hr : recoverCommitPrice sha bp salt commitHex approx with _ | r
  · rfl
  · obtain ⟨hpos, hround, hmatch, hbounds⟩ :=
      recoverCommitPrice_sound sha bp salt commitHex approx r hr
    have hr₀ : r = p₀ := huniq r hpos hround hmatch
    subst hr₀
    rcases hbounds with ⟨a, ha, hab⟩ | hle | hle
    · have := happ a ha
      rw [abs_le] at hab
      linarith [hab.2]
    · linarith
    · linarith

/-! ## Spec-side definitions

Definitions transcribed from the specification's wording, for comparison
against the code-derived definitions above. -/

/-- Spec §4.6: "the most recent `window` entries ... (oldest-first
truncation to the trailing window)": the last `n` elements, all of them
when fewer than `n` exist. -/
def specTrailingWindow {α : Type _} (n : ℕ) (l : List α) : List α :=
  (l.reverse.take n).reverse

/-- Spec §3: "`mag_q` = `min(round(|delta|*100), 255)`" — the quantization
formula as the spec words it, with `round` (Python's half-to-even
rounding), written with the executable `ratAbs`/`pyMin` models of `|·|`
and `min`. -/
def specMagQ (delta : ℚ) : ℤ := pyMin (pyRound (ratAbs delta * 100)) 255

/-! ## Extractor lemmas -/

theorem lastWindow_eq_spec {α : Type _} (n : ℕ) (l : List α) (hn : 1 ≤ n) :
    lastWindow n l = specTrailingWindow n l := by
  unfold lastWindow specTrailingWindow
  rw [if_neg (by omega)]
  have h := List.rtake_eq_reverse_take_reverse (l := l) (n := n)
  unfold List.rtake at h
  exact h

theorem bytesFromHex_ne_nil (h : String) (bs : List ℕ)
    (hdec : bytesFromHex h = some bs) (hne : h ≠ "") : bs ≠ [] := by
  unfold bytesFromHex at hdec
  rcases hd : h.data with _ | ⟨c₁, cs⟩
  · exact absurd (String.ext hd) hne
  · rw [hd] at hdec
    rcases cs with _ | ⟨c₂, rest⟩
    · simp [hexPairsToBytes] at hdec
    · unfold hexPairsToBytes at hdec
      split at hdec
      · injection hdec with hdec
        intro hcon
        rw [← hdec] at hcon
        exact List.cons_ne_nil _ _ hcon
      · simp at hdec

theorem lastWindow_ne_nil {α : Type _} (n : ℕ) (l : List α) (hn : 1 ≤ n)
    (hne : l ≠ []) : lastWindow n l ≠ [] := by
  unfold lastWindow
  rw [if_neg (by omega)]
  intro hcon
  have hlen := congrArg List.length hcon
  rw [List.length_drop, List.length_nil] at hlen
  have hpos : 0 < l.length := List.length_pos.mpr hne
  omega

theorem lastWindow_subset {α : Type _} (n : ℕ) (l : List α) (a : α)
    (ha : a ∈ lastWindow n l) : a ∈ l := by
  unfold lastWindow at ha
  split_ifs at ha with h
  · exact ha
  · exact List.mem_of_mem_drop ha

theorem collectBytes_valid (n : ℕ) (log : EntropyLog) (decs : List (List ℕ))
    (hn : 1 ≤ n) (hcol : log.hasBytesCol = true)
    (hne : byteEntries log ≠ [])
    (hdec : (lastWindow n (byteEntries log)).mapM bytesFromHex = some decs) :
    collectBytes n log = some decs.flatten := by
  unfold collectBytes
  rw [hcol]
  rw [if_neg (by decide)]
  rw [if_neg (lastWindow_ne_nil n _ hn hne)]
  have hfilter : (lastWindow n (byteEntries log)).filter (· ≠ "")
      = lastWindow n (byteEntries log) := by
    apply List.filter_eq_self.mpr
    intro a ha
    have hmem : a ∈ (log.rows.map LogRow.symbol_bytes_hex).filter (· ≠ "") := by
      have h := lastWindow_subset n _ a ha
      unfold byteEntries at h
      exact h
    exact (List.mem_filter.mp hmem).2
  rw [hfilter, hdec]

theorem mapM_flatten_ne_nil (h₁ : String) (t : List String)
    (decs : List (List ℕ)) (hdec : (h₁ :: t).mapM bytesFromHex = some decs)
    (hne : h₁ ≠ "") : decs.flatten ≠ [] := by
  rw [List.mapM_cons] at hdec
  rcases hd₁ : bytesFromHex h₁ with _ | bs₁ <;> rw [hd₁] at hdec
  · simp at hdec
  · rcases hdt : t.mapM bytesFromHex with _ | rest <;> rw [hdt] at hdec
    · simp at hdec
    · simp only [Option.bind_eq_bind, Option.some_bind, Option.pure_def,
        Option.some.injEq] at hdec
      subst hdec
      simp only [List.flatten_cons]
      intro hcon
      exact bytesFromHex_ne_nil h₁ bs₁ hd₁ hne (List.append_eq_nil.mp hcon).1

theorem strTake_length (s : String) (n : ℕ) :
    (strTake s n).length = min n s.length := by
  show (s.data.take n).length = min n s.data.length
  exact List.length_take n s.data

theorem lastWindow_nil {α : Type _} (n : ℕ) : lastWindow n ([] : List α) = [] := by
  unfold lastWindow
  split_ifs <;> simp

/-- A constant stand-in for a 64-hex-character SHA-256 digest, used to
instantiate hash-parameterized theorems at concrete inputs. -/
def shaConst64 : ShaFn :=
  fun _ => "0000000000000000000000000000000000000000000000000000000000000000"

/-- A constant stand-in for an HMAC-SHA256 hex digest. -/
def hmacConst : HmacFn :=
  fun _ _ => "00112233445566778899aabbccddeeff00112233445566778899aabbccddeeff"

/-! ## Claims -/

/-- **C6** (corrected).  Extraction output construction: for every beacon
value, collected byte stream and requested `outputBits`, the output equals
the first `outputBits/4` hex characters of `SHA256(seedBytes ∥ bytes)`,
where `seedBytes` is the hex decoding of the beacon value when it is valid
even-length hexadecimal and its UTF-8 text bytes otherwise.  Amended: the
resulting string has `min(outputBits/4, 64)` characters — a single SHA-256
hex digest has only 64, so requests beyond 256 bits are capped (spec §4.6
note, §9), refuting the claim's "exactly outputBits/4" for
`outputBits > 256`. -/
theorem C6_extraction_output (sha : ShaFn) (seedValue : String)
    (symbolBytes : List ℕ) (outBits : ℕ)
    (hlen : ∀ bs, (sha bs).length = 64) :
    extractRandomnessFromBytes sha symbolBytes seedValue outBits
      = strTake (sha (seedBytesOf seedValue ++ symbolBytes)) (outBits / 4) ∧
    (∀ bs, bytesFromHex seedValue = some bs →
      seedValue.data.all isLowerHexAfterLower = true →
      seedValue.length % 2 = 0 → seedBytesOf seedValue = bs) ∧
    (¬(seedValue.data.all isLowerHexAfterLower = true ∧ seedValue.length % 2 = 0) →
      seedBytesOf seedValue = utf8Bytes seedValue) ∧
    (extractRandomnessFromBytes sha symbolBytes seedValue outBits).length
      = min (outBits / 4) 64 := by
  refine ⟨rfl, ?_, ?_, ?_⟩
  · intro bs hdec hhex heven
    unfold seedBytesOf
    rw [if_pos (by rw [hhex]; simpa using heven), hdec]
  · intro hcond
    unfold seedBytesOf
    rw [if_neg]
    intro hb
    rw [Bool.and_eq_true] at hb
    exact hcond ⟨hb.1, by simpa using hb.2⟩
  · unfold extractRandomnessFromBytes
    rw [strTake_length, hlen]

/-- Witness for C6: a concrete instantiation with a 64-character digest
function. -/
theorem C6_extraction_output_witness :
    (∀ bs, (shaConst64 bs).length = 64) ∧
    (extractRandomnessFromBytes shaConst64 [1, 2] "a1b2" 256).length
      = min (256 / 4) 64 :=
  ⟨fun _ => rfl,
   (C6_extraction_output shaConst64 "a1b2" [1, 2] 256 fun _ => rfl).2.2.2⟩

/-- Counterexample for C6 as stated: with `outputBits = 512` the output
has 64 hex characters, not `512/4 = 128`. -/
theorem C6_extraction_output_counterexample :
    (extractRandomnessFromBytes shaConst64 [] "00" 512).length = 64 ∧
    512 / 4 = 128 ∧ (64 : ℕ) ≠ 128 := by decide

/-- **C7** (corrected).  Trailing-window collection: for `n ≥ 1` the slice
`l[-n:]` is exactly the spec's trailing window (the most recent `n`
entries, all of them when fewer exist); the extraction input is the
concatenated decoding of the trailing `n` non-empty `symbol_bytes_hex`
entries when the column exists, such entries exist, and they decode as
hex; and it falls back to the concatenated trailing `symbol_bits` strings
when the column is absent or no non-empty byte entry exists.  Amended
(forced by the counterexample): restricted to `n ≥ 1` — for `n = 0` the
Python slice `[-0:]` degenerates to the whole log — and the byte path
additionally assumes the entries decode as hex, since a malformed entry
also falls back to the legacy bits. -/
theorem C7_trailing_window_collection :
    (∀ (n : ℕ) (l : List String), 1 ≤ n →
      lastWindow n l = specTrailingWindow n l) ∧
    (∀ (n : ℕ) (log : EntropyLog) (decs : List (List ℕ)),
      1 ≤ n → log.hasBytesCol = true → byteEntries log ≠ [] →
      (lastWindow n (byteEntries log)).mapM bytesFromHex = some decs →
      extractionInput n log = .bytes decs.flatten) ∧
    (∀ (n : ℕ) (log : EntropyLog),
      log.hasBytesCol = false ∨ byteEntries log = [] →
      extractionInput n log
        = .bits (String.join (lastWindow n (bitEntries log)))) := by
  refine ⟨fun n l hn => lastWindow_eq_spec n l hn, ?_, ?_⟩
  · intro n log decs hn hcol hne hdec
    have hcb := collectBytes_valid n log decs hn hcol hne hdec
    have hfl : decs.flatten ≠ [] := by
      obtain ⟨h₁, t, hw⟩ :=
        List.exists_cons_of_ne_nil (lastWindow_ne_nil n _ hn hne)
      rw [hw] at hdec
      refine mapM_flatten_ne_nil h₁ t decs hdec ?_
      have hm : h₁ ∈ byteEntries log :=
        lastWindow_subset n _ h₁ (by rw [hw]; exact List.mem_cons_self _ _)
      have hp : h₁ ∈ (log.rows.map LogRow.symbol_bytes_hex).filter (· ≠ "") := by
        unfold byteEntries at hm; exact hm
      simpa using (List.mem_filter.mp hp).2
    unfold extractionInput
    rw [hcb]
    have hfe : decs.flatten.isEmpty = false := by
      rcases hf : decs.flatten.isEmpty
      · rfl
      · exact absurd (List.isEmpty_iff.mp hf) hfl
    simp [hfe]
  · intro n log hcase
    have hnone : collectBytes n log = none := by
      unfold collectBytes
      rcases hcase with hcol | hbe
      · rw [hcol]
        simp
      · rw [hbe, lastWindow_nil]
        split_ifs <;> rfl
    unfold extractionInput
    rw [hnone]
    rfl

/-- Witness for C7: a concrete two-row log with window 1 takes exactly the
most recent byte entry, and a log without the byte column falls back to
the bits. -/
theorem C7_trailing_window_collection_witness :
    lastWindow 2 ["0a", "0b", "0c"] = specTrailingWindow 2 ["0a", "0b", "0c"] ∧
    extractionInput 1 ⟨true, [⟨"10", "0a"⟩, ⟨"11", "00010203"⟩]⟩
      = .bytes [0, 1, 2, 3] ∧
    extractionInput 3 ⟨false, [⟨"10", "0a"⟩]⟩
      = .bits (String.join (lastWindow 3 (bitEntries ⟨false, [⟨"10", "0a"⟩]⟩))) :=
  ⟨C7_trailing_window_collection.1 2 _ (by decide),
   C7_trailing_window_collection.2.1 1 _ [[0, 1, 2, 3]]
     (by decide) rfl (by decide) (by decide),
   C7_trailing_window_collection.2.2 3 _ (Or.inl rfl)⟩

/-- Counterexample for C7 as stated: with window 0 the slice `[-0:]`
collects the whole log instead of the most recent zero entries; and a log
whose only byte-form entry is non-hex (`"zz"`) falls back to the legacy
bits although a byte-form entry exists. -/
theorem C7_trailing_window_collection_counterexample :
    (collectBytes 0 ⟨true, [⟨"10", "0a"⟩, ⟨"11", "0b"⟩]⟩ = some [10, 11] ∧
     specTrailingWindow 0 (byteEntries ⟨true, [⟨"10", "0a"⟩, ⟨"11", "0b"⟩]⟩) = []) ∧
    (extractionInput 1 ⟨true, [⟨"10", "zz"⟩]⟩ = .bits "10" ∧
     byteEntries ⟨true, [⟨"10", "zz"⟩]⟩ ≠ []) := by decide

/-- **C9** (confirmed).  Canonical payload codec order-independence: two
field mappings with the same key-value pairs, in any insertion order,
serialize to the identical byte string, so the commitment digest is a
strict function of the field values alone. -/
theorem C9_canonical_codec_order_independence (l₁ l₂ : List JField)
    (hperm : l₁.Perm l₂) (hnd : (l₁.map Prod.fst).Nodup) :
    canonicalJson l₁ = canonicalJson l₂ ∧
    ∀ sha : ShaFn, hashCommitPayload sha l₁ = hashCommitPayload sha l₂ := by
  have h := canonicalJson_eq_of_perm l₁ l₂ hperm hnd
  exact ⟨h, fun sha => by unfold hashCommitPayload; rw [h]⟩

/-- Witness for C9: two concrete two-field mappings in swapped insertion
order serialize identically. -/
theorem C9_canonical_codec_order_independence_witness :
    ([("b", JVal.i 1), ("a", JVal.s "x")] : List JField).Perm
      [("a", JVal.s "x"), ("b", JVal.i 1)] ∧
    canonicalJson [("b", JVal.i 1), ("a", JVal.s "x")]
      = canonicalJson [("a", JVal.s "x"), ("b", JVal.i 1)] :=
  ⟨List.Perm.swap _ _ _,
   (C9_canonical_codec_order_independence _ _ (List.Perm.swap _ _ _)
     (by decide)).1⟩

instance {ε α : Type _} [DecidableEq ε] [DecidableEq α] :
    DecidableEq (Except ε α) := fun a b =>
  match a, b with
  | .error e₁, .error e₂ =>
    if h : e₁ = e₂ then isTrue (by rw [h])
    else isFalse fun hc => h (Except.error.inj hc)
  | .ok v₁, .ok v₂ =>
    if h : v₁ = v₂ then isTrue (by rw [h])
    else isFalse fun hc => h (Except.ok.inj hc)
  | .error _, .ok _ => isFalse fun hc => Except.noConfusion hc
  | .ok _, .error _ => isFalse fun hc => Except.noConfusion hc

theorem pyBytes_some (l : List ℤ) (bs : List ℕ) (h : pyBytes l = some bs) :
    bs = l.map Int.toNat := by
  unfold pyBytes at h
  split_ifs at h
  exact (Option.some.inj h).symm

/-- What a successful pass through `verifyReveal` stores in the appended
entropy row: each derived field as the code computes it. -/
theorem verifyReveal_ok (env : RevealEnv) (secret : String) (doc : Doc)
    (sym : String) (rec : Rec) (p t : ℚ) (ci : CommitInputs) (rec1 : Rec)
    (d : Doc) (row : Row)
    (h : verifyReveal env secret doc sym rec p t ci rec1 = .ok (some (d, row))) :
    row.prediction = some ci.prediction ∧
    row.outcome = some (if t > p then 1 else 0) ∧
    row.sign_bit = some (if t - roundCommitPrice ci.p_commit > 0 then 1 else 0) ∧
    row.mag_q = some (pyMin (pyInt (ratAbs (t - roundCommitPrice ci.p_commit) * 100)) 255) ∧
    row.delta = some (t - roundCommitPrice ci.p_commit) ∧
    row.p_commit = some (roundCommitPrice ci.p_commit) ∧
    row.close_prev = some p ∧
    row.close_today = some t ∧
    row.symbol_bits = some (String.mk (intChars ci.prediction)
      ++ String.mk (intChars (if t > p then 1 else 0))) ∧
    row.symbol_bytes_hex = some (bytesToHex
      ([ci.prediction, if t > p then 1 else 0,
        if t - roundCommitPrice ci.p_commit > 0 then 1 else 0,
        pyMin (pyInt (ratAbs (t - roundCommitPrice ci.p_commit) * 100)) 255].map
          Int.toNat)) := by
  simp only [verifyReveal] at h
  split at h
  · exact absurd h (by simp)
  · split at h
    · exact absurd h (by simp)
    · next bs heq =>
      rw [pyBytes_some _ _ heq] at h
      injection h with h
      injection h with h
      injection h with h₁ h₂
      subst h₂
      simp [rowOf]

theorem pyInt_ge_255 (x : ℚ) (hx : (255 : ℚ) ≤ x) : (255 : ℤ) ≤ pyInt x := by
  unfold pyInt
  rw [if_neg (by linarith), ratFloor_eq]
  exact Int.le_floor.mpr (by exact_mod_cast hx)

theorem pyMin_right_of_ge (a : ℤ) (h : 255 ≤ a) : pyMin a 255 = 255 := by
  unfold pyMin
  split_ifs <;> omega

/-! ### Concrete witness scenario for the engine claims

A toy instantiation of the collaborators: a constant digest function, a
constant HMAC, one symbol, a commit-bar price of `100.25` and closes
`(100, 100.386)`. -/

/-- Witness scenario: commit-phase collaborator outcomes. -/
def wCommitEnv : CommitEnv where
  cfg := defaultConfig
  sha := shaConst64
  hmacHex := hmacConst
  isTradingDay := true
  withinWindow := true
  secret := some "testkey"
  minuteBar := fun _ => some (100.25, "2024-01-16T15:55:00-05:00")
  predict := fun _ => 1
  nowUtcIso := "2024-01-16T20:56:00+00:00"
  tradeDateIso := "2024-01-16"
  metaGeneratedAt := "2024-01-16T20:56:00+00:00"
  codeCommit := "deadbeef"

/-- Witness scenario: reveal-phase collaborator outcomes. -/
def wRevealEnv : RevealEnv where
  cfg := defaultConfig
  sha := shaConst64
  hmacHex := hmacConst
  isTradingDay := true
  withinWindow := true
  secret := some "testkey"
  prevToday := fun _ => (some 100, some 100.386)
  predictGuess := fun _ => 1
  priceAtBar := fun _ _ => some 100.25
  nowUtcIso := "2024-01-16T21:10:00+00:00"
  tradeDateIso := "2024-01-16"
  fallbackBarTs := "2024-01-16T15:55:00-05:00"

/-- The per-day document after the scenario's commit for `SPY`. -/
def wDoc : Doc :=
  (commitSymbol wCommitEnv "testkey" { date := "2024-01-16", symbols := [] } "SPY").1

/-- The committed record of the scenario. -/
def wRec : Rec := (symbolLookup wDoc.symbols "SPY").getD { symbol := "SPY" }

/-- The scenario's `_ensure_commit_inputs` outcome. -/
def wEnsure : Except String (CommitInputs × Rec) :=
  ensureCommitInputs wRevealEnv "testkey" wRec "SPY"

/-- The reconstructed commit inputs of the scenario. -/
def wCI : CommitInputs :=
  match wEnsure with
  | .ok (ci, _) => ci
  | .error _ => ⟨"", 0, 0, "", "", ""⟩

/-- The memoized record of the scenario. -/
def wRec1 : Rec :=
  match wEnsure with
  | .ok (_, r) => r
  | .error _ => { symbol := "" }

/-- The scenario's verification-and-outcome step. -/
def wVerify : Except String (Option (Doc × Row)) :=
  verifyReveal wRevealEnv "testkey" wDoc "SPY" wRec 100 100.386 wCI wRec1

/-- The document after the scenario's reveal. -/
def wDoc2 : Doc :=
  match wVerify with
  | .ok (some (d, _)) => d
  | _ => wDoc

/-- The entropy row appended by the scenario's reveal. -/
def wRow : Row :=
  match wVerify with
  | .ok (some (_, row)) => row
  | _ => rowOf "" { symbol := "" }

/-- **C3** (corrected).  Magnitude quantization: for every symbol processed
by `perform_reveal`, with `delta = close_today - p_commit`, the stored
`mag_q` equals `min(int(|delta|*100), 255)` — Python `int` truncation
toward zero, not `round` — and every `|delta| ≥ 2.55` still maps to the
saturated value 255.  Amended: the code truncates (`int(abs(delta)*100)`)
where the claim's formula rounds half-to-even; the two differ, e.g., at
`|delta| = 0.136`.  The spec's own end-to-end scenario (§8,
`delta=0.8766 → mag_q=87`) agrees with the truncating code. -/
theorem C3_magnitude_quantization (env : RevealEnv) (secret : String)
    (doc : Doc) (sym : String) (rec : Rec) (p t : ℚ) (ci : CommitInputs)
    (rec1 : Rec) (d : Doc) (row : Row)
    (h : verifyReveal env secret doc sym rec p t ci rec1 = .ok (some (d, row))) :
    row.delta = some (t - roundCommitPrice ci.p_commit) ∧
    row.mag_q = some (pyMin (pyInt (ratAbs (t - roundCommitPrice ci.p_commit) * 100)) 255) ∧
    ((2.55 : ℚ) ≤ ratAbs (t - roundCommitPrice ci.p_commit) →
      row.mag_q = some 255) := by
  obtain ⟨-, -, -, hmag, hdelta, -⟩ :=
    verifyReveal_ok env secret doc sym rec p t ci rec1 d row h
  refine ⟨hdelta, hmag, fun hsat => ?_⟩
  rw [hmag]
  congr 1
  apply pyMin_right_of_ge
  apply pyInt_ge_255
  nlinarith [hsat]

unseal Rat.add Rat.mul Rat.sub Rat.inv Rat.ofScientific in
/-- Witness for C3: the concrete scenario (`p_commit = 100.25`,
`close_today = 100.386`, so `delta = 0.136`) evaluated end to end. -/
theorem C3_magnitude_quantization_witness :
    verifyReveal wRevealEnv "testkey" wDoc "SPY" wRec 100 100.386 wCI wRec1
      = .ok (some (wDoc2, wRow)) ∧
    wRow.mag_q = some (pyMin (pyInt (ratAbs ((100.386 : ℚ)
      - roundCommitPrice wCI.p_commit) * 100)) 255) :=
  ⟨by decide,
   (C3_magnitude_quantization wRevealEnv "testkey" wDoc "SPY" wRec 100 100.386
     wCI wRec1 wDoc2 wRow (by decide)).2.1⟩

unseal Rat.add Rat.mul Rat.sub Rat.inv Rat.ofScientific in
/-- Counterexample for C3 as stated: at `delta = 0.136` the code stores
`mag_q = 13` (truncation of 13.6) while the claim's formula
`min(round(|delta|*100), 255)` gives 14. -/
theorem C3_magnitude_quantization_counterexample :
    wRow.delta = some 0.136 ∧ wRow.mag_q = some 13 ∧
    specMagQ 0.136 = 14 ∧ (13 : ℤ) ≠ 14 := by decide

/-- **C8** (confirmed).  Reveal output fields: for every symbol
successfully revealed, `outcome = 1` iff `close_today > close_prev`,
`sign_bit = 1` iff `delta > 0` (so `delta = 0` yields 0), `symbol_bits`
is `str(prediction) ++ str(outcome)`, and `symbol_bytes_hex` is the hex
encoding of the 4 raw bytes `[prediction, outcome, sign_bit, mag_q]`. -/
theorem C8_reveal_output_fields (env : RevealEnv) (secret : String)
    (doc : Doc) (sym : String) (rec : Rec) (p t : ℚ) (ci : CommitInputs)
    (rec1 : Rec) (d : Doc) (row : Row)
    (h : verifyReveal env secret doc sym rec p t ci rec1 = .ok (some (d, row))) :
    row.outcome = some (if t > p then 1 else 0) ∧
    row.sign_bit = some (if t - roundCommitPrice ci.p_commit > 0 then 1 else 0) ∧
    (t - roundCommitPrice ci.p_commit = 0 → row.sign_bit = some 0) ∧
    row.symbol_bits = some (String.mk (intChars ci.prediction)
      ++ String.mk (intChars (if t > p then 1 else 0))) ∧
    ∃ P O sb mq, row.prediction = some P ∧ row.outcome = some O ∧
      row.sign_bit = some sb ∧ row.mag_q = some mq ∧
      row.symbol_bytes_hex = some (bytesToHex ([P, O, sb, mq].map Int.toNat)) := by
  obtain ⟨hpred, hout, hsign, hmag, -, -, -, -, hbits, hhex⟩ :=
    verifyReveal_ok env secret doc sym rec p t ci rec1 d row h
  refine ⟨hout, hsign, fun hz => ?_, hbits,
    ci.prediction, _, _, _, hpred, hout, hsign, hmag, hhex⟩
  rw [hsign, hz]
  simp

unseal Rat.add Rat.mul Rat.sub Rat.inv Rat.ofScientific in
/-- Witness for C8: the concrete scenario evaluated end to end
(`outcome = 1`, `sign_bit = 1`, `symbol_bits = "11"`,
`symbol_bytes_hex = "0101010d"`). -/
theorem C8_reveal_output_fields_witness :
    verifyReveal wRevealEnv "testkey" wDoc "SPY" wRec 100 100.386 wCI wRec1
      = .ok (some (wDoc2, wRow)) ∧
    wRow.outcome = some 1 ∧ wRow.symbol_bits = some "11" ∧
    wRow.symbol_bytes_hex = some "0101010d" ∧
    wRow.outcome = some (if (100.386 : ℚ) > 100 then 1 else 0) :=
  ⟨by decide, by decide, by decide, by decide,
   ((C8_reveal_output_fields wRevealEnv "testkey" wDoc "SPY" wRec 100 100.386
     wCI wRec1 wDoc2 wRow (by decide)).1)⟩

/-- `_ensure_commit_inputs` raises the unreconcilable error once every
prediction candidate has failed both the stored-price check and the
bounded search. -/
theorem ensureLoop_exhausted (sha : ShaFn)
    (salt commitHex ctx barTs storedTs sym : String)
    (storedPrice approx : Option ℚ) (rec : Rec) :
    ∀ l : List ℤ,
      (∀ pred ∈ l,
        (∀ sp, storedPrice = some sp →
          hashCommitPayload sha (candidatePayload ⟨sym, pred, barTs, storedTs, ctx⟩
            (roundCommitPrice sp) salt) ≠ commitHex) ∧
        recoverCommitPrice sha ⟨sym, pred, barTs, storedTs, ctx⟩ salt commitHex
          approx = none) →
      ensureLoop sha salt commitHex ctx barTs storedTs sym storedPrice approx rec l
        = .error ("Unable to reconcile commit payload for " ++ sym)
  | [], _ => rfl
  | pred :: rest, h => by
    have hhead := h pred (List.mem_cons_self _ _)
    have htail := ensureLoop_exhausted sha salt commitHex ctx barTs storedTs sym
      storedPrice approx rec rest (fun p hp => h p (List.mem_cons_of_mem _ hp))
    rcases storedPrice with _ | sp
    · simp only [ensureLoop]
      rw [hhead.2]
      exact htail
    · simp only [ensureLoop]
      rw [if_neg (hhead.1 sp rfl)]
      rw [hhead.2]
      exact htail

/-- **C4** (confirmed).  Reconciliation search soundness and bounded
termination: every price returned by `_recover_commit_price` is strictly
positive, canonically rounded to 4 decimals, and arises from one of the
bounded phases (within 2.0 of the rounded approximate price, or from the
coarse scan capped at 2000.0, or from the fine scan capped at 1000.0);
the search is a total function over a finite candidate list (termination
by construction); and when every candidate fails, `_ensure_commit_inputs`
raises the unreconcilable-commitment error instead of returning. -/
theorem C4_reconciliation_soundness_and_exhaustion :
    (∀ (sha : ShaFn) (bp : BasePayload) (salt commitHex : String)
        (approx : Option ℚ) (r : ℚ),
      recoverCommitPrice sha bp salt commitHex approx = some r →
      0 < r ∧ roundCommitPrice r = r ∧
        ((∃ a, approx = some a ∧ |r - roundCommitPrice a| ≤ 2) ∨
          r ≤ 2000 ∨ r ≤ 1000)) ∧
    (∀ (sha : ShaFn) (salt commitHex ctx barTs storedTs sym : String)
        (storedPrice approx : Option ℚ) (rec : Rec) (l : List ℤ),
      (∀ pred ∈ l,
        (∀ sp, storedPrice = some sp →
          hashCommitPayload sha (candidatePayload ⟨sym, pred, barTs, storedTs, ctx⟩
            (roundCommitPrice sp) salt) ≠ commitHex) ∧
        recoverCommitPrice sha ⟨sym, pred, barTs, storedTs, ctx⟩ salt commitHex
          approx = none) →
      ensureLoop sha salt commitHex ctx barTs storedTs sym storedPrice approx rec l
        = .error ("Unable to reconcile commit payload for " ++ sym)) := by
  constructor
  · intro sha bp salt commitHex approx r h
    obtain ⟨h₁, h₂, -, h₄⟩ :=
      recoverCommitPrice_sound sha bp salt commitHex approx r h
    exact ⟨h₁, h₂, h₄⟩
  · intro sha salt commitHex ctx barTs storedTs sym storedPrice approx rec l hall
    exact ensureLoop_exhausted sha salt commitHex ctx barTs storedTs sym
      storedPrice approx rec l hall

unseal Rat.add Rat.mul Rat.sub Rat.inv Rat.ofScientific in
/-- Witness for C4: a constant digest makes the first probed candidate
match, and the empty prediction-candidate list exhausts immediately. -/
theorem C4_reconciliation_soundness_and_exhaustion_witness :
    recoverCommitPrice shaConst64 ⟨"SPY", 1, "b", "t", "c"⟩ "s"
      (shaConst64 []) (some 5) = some 5 ∧
    (0 < (5 : ℚ) ∧ roundCommitPrice 5 = 5 ∧
      ((∃ a, (some (5 : ℚ)) = some a ∧ |(5 : ℚ) - roundCommitPrice a| ≤ 2) ∨
        (5 : ℚ) ≤ 2000 ∨ (5 : ℚ) ≤ 1000)) ∧
    ensureLoop shaConst64 "s" "deadbeef" "c" "b" "t" "SPY" none none
      { symbol := "SPY" } []
      = .error ("Unable to reconcile commit payload for " ++ "SPY") :=
  ⟨by decide,
   C4_reconciliation_soundness_and_exhaustion.1 shaConst64
     ⟨"SPY", 1, "b", "t", "c"⟩ "s" (shaConst64 []) (some 5) 5 (by decide),
   C4_reconciliation_soundness_and_exhaustion.2 shaConst64 "s" "deadbeef" "c"
     "b" "t" "SPY" none none { symbol := "SPY" } [] (by simp)⟩

/-! ## Injectivity of the canonical payload in the price and prediction

Used to discharge, at a concrete digest function, the collision-freeness
hypothesis of the reconciliation-determinism claim: two candidate payloads
that serialize identically carry the same prediction and price. -/

theorem digitChar_mod (k : ℕ) : digitChar k = digitChar (k % 10) := by
  unfold digitChar
  have h : k % 10 % 10 = k % 10 := by omega
  rw [h]

theorem digitChar_ne_comma (k : ℕ) : digitChar k ≠ ',' := by
  rw [digitChar_mod]
  have hr : k % 10 < 10 := by omega
  revert hr
  generalize k % 10 = r
  revert r
  decide

theorem digitChar_ne_dash (k : ℕ) : digitChar k ≠ '-' := by
  rw [digitChar_mod]
  have hr : k % 10 < 10 := by omega
  revert hr
  generalize k % 10 = r
  revert r
  decide

theorem mem_natCharsAux :
    ∀ (fuel n : ℕ) (c : Char), c ∈ natCharsAux fuel n → ∃ k, c = digitChar k
  | 0, _, _, hc => by simp [natCharsAux] at hc
  | _ + 1, 0, _, hc => by simp [natCharsAux] at hc
  | fuel + 1, n + 1, c, hc => by
    rw [show natCharsAux (fuel + 1) (n + 1)
        = natCharsAux fuel ((n + 1) / 10) ++ [digitChar ((n + 1) % 10)] from rfl] at hc
    rcases List.mem_append.mp hc with hc | hc
    · exact mem_natCharsAux fuel _ c hc
    · exact ⟨(n + 1) % 10, List.mem_singleton.mp hc⟩

theorem mem_natChars (n : ℕ) (c : Char) (hc : c ∈ natChars n) :
    ∃ k, c = digitChar k := by
  unfold natChars at hc
  split_ifs at hc
  · exact ⟨0, List.mem_singleton.mp hc⟩
  · exact mem_natCharsAux n n c hc

theorem comma_not_mem_intChars (p : ℤ) : ',' ∉ intChars p := by
  unfold intChars
  intro hc
  split_ifs at hc
  · rcases List.mem_cons.mp hc with hc | hc
    · exact absurd hc.symm (by decide)
    · obtain ⟨k, hk⟩ := mem_natChars _ _ hc
      exact digitChar_ne_comma k hk.symm
  · obtain ⟨k, hk⟩ := mem_natChars _ _ hc
    exact digitChar_ne_comma k hk.symm

theorem comma_not_mem_frac4 (m : ℕ) : ',' ∉ frac4Chars m := by
  intro hc
  unfold frac4Chars at hc
  simp only [List.mem_cons, List.not_mem_nil, or_false] at hc
  rcases hc with hc | hc | hc | hc <;>
    exact absurd hc.symm (digitChar_ne_comma _)

theorem comma_not_mem_renderPrice (q : ℚ) (hq : 0 < q) :
    ',' ∉ renderPriceChars q := by
  unfold renderPriceChars
  rw [if_neg (not_lt.mpr hq.le)]
  unfold renderScaledPrice
  intro hc
  rcases List.mem_append.mp hc with hc | hc
  · obtain ⟨k, hk⟩ := mem_natChars _ _ hc
    exact digitChar_ne_comma k hk.symm
  · rcases List.mem_cons.mp hc with hc | hc
    · exact absurd hc (by decide)
    · exact comma_not_mem_frac4 _ hc

/-- Splitting a list equality at the first occurrence of a separator that
neither prefix contains. -/
theorem append_cons_inj {c : Char} :
    ∀ (x y u v : List Char), c ∉ x → c ∉ y →
      x ++ c :: u = y ++ c :: v → x = y ∧ u = v
  | [], [], u, v, _, _, h => by simpa using h
  | [], b :: y', u, v, _, hy, h => by
    simp only [List.nil_append, List.cons_append, List.cons.injEq] at h
    obtain ⟨h₁, -⟩ := h
    subst h₁
    exact absurd (List.mem_cons_self _ _) hy
  | a :: x', [], u, v, hx, _, h => by
    simp only [List.cons_append, List.nil_append, List.cons.injEq] at h
    obtain ⟨h₁, -⟩ := h
    subst h₁
    exact absurd (List.mem_cons_self _ _) hx
  | a :: x', b :: y', u, v, hx, hy, h => by
    simp only [List.cons_append, List.cons.injEq] at h
    obtain ⟨rfl, h'⟩ := h
    obtain ⟨h₁, h₂⟩ := append_cons_inj x' y' u v
      (fun hc => hx (List.mem_cons_of_mem _ hc))
      (fun hc => hy (List.mem_cons_of_mem _ hc)) h'
    exact ⟨by rw [h₁], h₂⟩

theorem intChars_inj (i j : ℤ) (h : intChars i = intChars j) : i = j := by
  unfold intChars at h
  split_ifs at h with hi hj hj
  · have habs := natChars_injective (List.cons.inj h).2
    omega
  · exfalso
    have : '-' ∈ natChars j.natAbs := by
      rw [← h]
      exact List.mem_cons_self _ _
    obtain ⟨k, hk⟩ := mem_natChars _ _ this
    exact digitChar_ne_dash k hk.symm
  · exfalso
    have : '-' ∈ natChars i.natAbs := by
      rw [h]
      exact List.mem_cons_self _ _
    obtain ⟨k, hk⟩ := mem_natChars _ _ this
    exact digitChar_ne_dash k hk.symm
  · have habs := natChars_injective h
    omega

theorem utf8Bytes_inj (s₁ s₂ : String) (h : utf8Bytes s₁ = utf8Bytes s₂) :
    s₁ = s₂ := by
  apply String.ext
  have hinj : Function.Injective Char.toNat := fun a b hab =>
    Char.ext (UInt32.toNat.inj hab)
  exact List.map_injective_iff.mpr hinj h

/-- Two candidate payloads sharing every field but the price and the
prediction serialize identically only if price and prediction agree. -/
theorem candidatePayload_canonical_inj (sym barTs ts ctx salt : String)
    (pred pred' : ℤ) (q q' : ℚ) (hq : 0 < q) (hq' : 0 < q')
    (hg : onGrid q) (hg' : onGrid q')
    (h : canonicalJson (candidatePayload ⟨sym, pred, barTs, ts, ctx⟩ q salt)
       = canonicalJson (candidatePayload ⟨sym, pred', barTs, ts, ctx⟩ q' salt)) :
    pred = pred' ∧ q = q' := by
  have hsort : ∀ (p : ℤ) (v : ℚ),
      sortFields (candidatePayload ⟨sym, p, barTs, ts, ctx⟩ v salt)
      = [("commit_bar_ts_et", .s barTs), ("context", .s ctx),
         ("p_commit", .price v), ("prediction", .i p), ("salt", .s salt),
         ("symbol", .s sym), ("timestamp_commit_utc", .s ts)] :=
    fun p v => by with_unfolding_all rfl
  have h' := congrArg String.data h
  simp only [canonicalJson, hsort, renderFields, renderField, renderJVal,
    List.cons_append, List.nil_append, List.append_assoc, List.cons.injEq,
    List.append_cancel_left_eq, true_and] at h'
  obtain ⟨hprice, hrest⟩ := append_cons_inj _ _ _ _
    (comma_not_mem_renderPrice q hq) (comma_not_mem_renderPrice q' hq') h'
  have hqq := renderPriceChars_inj_pos q q' hq hq' hg hg' hprice
  simp only [List.cons.injEq, true_and] at hrest
  obtain ⟨hpred, -⟩ := append_cons_inj _ _ _ _
    (comma_not_mem_intChars pred) (comma_not_mem_intChars pred') hrest
  exact ⟨intChars_inj _ _ hpred, hqq⟩

theorem onGrid_of_round_eq (q : ℚ) (h : roundCommitPrice q = q) : onGrid q := by
  rw [← h]
  exact roundCommitPrice_onGrid q

/-- With a collision-free digest whose only preimage on the candidate space
is `(P₀, p₀)`, the prediction loop recovers exactly that pair as soon as
`P₀` is among the candidates (the fine scan covers every positive on-grid
price up to 1000). -/
theorem ensureLoop_finds (sha : ShaFn)
    (salt commitHex ctx barTs storedTs sym : String) (approx : ℚ) (rec : Rec)
    (p₀ : ℚ) (P₀ : ℤ) (hpos : 0 < p₀) (hg : onGrid p₀) (hle : p₀ ≤ 1000)
    (hmatch : hashCommitPayload sha
      (candidatePayload ⟨sym, P₀, barTs, storedTs, ctx⟩ p₀ salt) = commitHex)
    (huniq : ∀ (pred : ℤ) (q : ℚ), 0 < q → roundCommitPrice q = q →
      hashCommitPayload sha (candidatePayload ⟨sym, pred, barTs, storedTs, ctx⟩ q salt)
        = commitHex → pred = P₀ ∧ q = p₀) :
    ∀ l : List ℤ, P₀ ∈ l →
      ensureLoop sha salt commitHex ctx barTs storedTs sym none (some approx) rec l
        = .ok (⟨sym, P₀, p₀, barTs, storedTs, ctx⟩,
            { rec with
                commit_inputs :=
                  some (CommitInputs.toStored ⟨sym, P₀, p₀, barTs, storedTs, ctx⟩) })
  | [], hmem => absurd hmem (List.not_mem_nil _)
  | pred :: rest, hmem => by
    by_cases hp : pred = P₀
    · subst hp
      simp only [ensureLoop]
      rw [recoverCommitPrice_finds sha _ salt commitHex (some approx) p₀ hpos hg
        hle hmatch (fun q hq hr hh => (huniq pred q hq hr hh).2)]
    · have hnone : recoverCommitPrice sha ⟨sym, pred, barTs, storedTs, ctx⟩
          salt commitHex (some approx) = none := by
        rcases hres : recoverCommitPrice sha ⟨sym, pred, barTs, storedTs, ctx⟩
            salt commitHex (some approx) with _ | r
        · rfl
        · obtain ⟨h₁, h₂, h₃, -⟩ := recoverCommitPrice_sound sha _ salt commitHex
            (some approx) r hres
          exact absurd (huniq pred r h₁ h₂ h₃).1 hp
      have hmem' : P₀ ∈ rest := by
        rcases List.mem_cons.mp hmem with h | h
        · exact absurd h.symm hp
        · exact h
      simp only [ensureLoop]
      rw [hnone]
      exact ensureLoop_finds sha salt commitHex ctx barTs storedTs sym approx rec
        p₀ P₀ hpos hg hle hmatch huniq rest hmem'

/-- **C5** (confirmed).  Reconciliation completeness and determinism: for a
commitment whose only candidate-space preimage is `(prediction 1,
price 123.4567)` — the standard collision-freeness property of SHA-256,
carried as a hypothesis on the abstract digest — the resolver seeded with
that digest and any approximate price within 2.0 recovers exactly price
123.4567 and prediction 1; and when the digest's only possible preimage
price lies outside every configured search ceiling, the resolver
terminates cleanly with the unreconcilable-commitment error. -/
theorem C5_reconciliation_determinism :
    (∀ (sha : ShaFn) (sym ctx barTs storedTs salt commitHex : String)
        (a : ℚ) (rec : Rec) (l : List ℤ),
      hashCommitPayload sha (candidatePayload ⟨sym, 1, barTs, storedTs, ctx⟩
        (123.4567 : ℚ) salt) = commitHex →
      (∀ (pred : ℤ) (q : ℚ), 0 < q → roundCommitPrice q = q →
        hashCommitPayload sha (candidatePayload ⟨sym, pred, barTs, storedTs, ctx⟩
          q salt) = commitHex → pred = 1 ∧ q = 123.4567) →
      |a - (123.4567 : ℚ)| ≤ 2 →
      (1 : ℤ) ∈ l →
      ensureLoop sha salt commitHex ctx barTs storedTs sym none (some a) rec l
        = .ok (⟨sym, 1, (123.4567 : ℚ), barTs, storedTs, ctx⟩,
            { rec with
                commit_inputs :=
                  some (CommitInputs.toStored
                    ⟨sym, 1, (123.4567 : ℚ), barTs, storedTs, ctx⟩) })) ∧
    (∀ (sha : ShaFn) (sym ctx barTs storedTs salt commitHex : String)
        (approx : Option ℚ) (p₀ : ℚ) (rec : Rec) (l : List ℤ),
      (∀ (pred : ℤ) (q : ℚ), 0 < q → roundCommitPrice q = q →
        hashCommitPayload sha (candidatePayload ⟨sym, pred, barTs, storedTs, ctx⟩
          q salt) = commitHex → q = p₀) →
      2000 < p₀ →
      (∀ x, approx = some x → roundCommitPrice x + 2 < p₀) →
      ensureLoop sha salt commitHex ctx barTs storedTs sym none approx rec l
        = .error ("Unable to reconcile commit payload for " ++ sym)) := by
  constructor
  · intro sha sym ctx barTs storedTs salt commitHex a rec l hC huniq ha hmem
    exact ensureLoop_finds sha salt commitHex ctx barTs storedTs sym a rec
      (123.4567 : ℚ) 1 (by norm_num)
      ((onGrid_iff _).mpr ⟨1234567, by norm_num⟩) (by norm_num) hC huniq l hmem
  · intro sha sym ctx barTs storedTs salt commitHex approx p₀ rec l huniq hbig happ
    apply ensureLoop_exhausted
    intro pred _
    refine ⟨fun sp hsp => by simp at hsp, ?_⟩
    exact recoverCommitPrice_fails sha _ salt commitHex approx p₀
      (fun q hq hr hh => huniq pred q hq hr hh) hbig happ

/-- The serialized bytes of the target payload `(prediction 1,
price 123.4567)` with empty string fields. -/
def cpTarget : List ℕ :=
  utf8Bytes (canonicalJson (candidatePayload ⟨"", 1, "", "", ""⟩ (123.4567 : ℚ) ""))

/-- A digest function whose unique matching input is the target payload:
the concrete stand-in for a collision-free SHA-256. -/
def shaPoint : ShaFn := fun bs => if bs = cpTarget then "M" else "N"

unseal Rat.add Rat.mul Rat.sub Rat.inv Rat.ofScientific in
/-- Witness for C5: with the point digest, the resolver seeded with the
exact approximate price recovers `(1, 123.4567)`. -/
theorem C5_reconciliation_determinism_witness :
    (hashCommitPayload shaPoint (candidatePayload ⟨"", 1, "", "", ""⟩
      (123.4567 : ℚ) "") = "M") ∧
    (∀ (pred : ℤ) (q : ℚ), 0 < q → roundCommitPrice q = q →
      hashCommitPayload shaPoint (candidatePayload ⟨"", pred, "", "", ""⟩ q "")
        = "M" → pred = 1 ∧ q = 123.4567) ∧
    ensureLoop shaPoint "" "M" "" "" "" "" none (some (123.4567 : ℚ))
      { symbol := "" } [1]
      = .ok (⟨"", 1, (123.4567 : ℚ), "", "", ""⟩,
          { ({ symbol := "" } : Rec) with
              commit_inputs :=
                some (CommitInputs.toStored
                  ⟨"", 1, (123.4567 : ℚ), "", "", ""⟩) }) := by
  have hC : hashCommitPayload shaPoint (candidatePayload ⟨"", 1, "", "", ""⟩
      (123.4567 : ℚ) "") = "M" := by
    simp only [hashCommitPayload, shaPoint]
    exact if_pos rfl
  have hU : ∀ (pred : ℤ) (q : ℚ), 0 < q → roundCommitPrice q = q →
      hashCommitPayload shaPoint (candidatePayload ⟨"", pred, "", "", ""⟩ q "")
        = "M" → pred = 1 ∧ q = 123.4567 := by
    intro pred q hq hr hh
    simp only [hashCommitPayload, shaPoint] at hh
    by_cases hce : utf8Bytes (canonicalJson
        (candidatePayload ⟨"", pred, "", "", ""⟩ q "")) = cpTarget
    · have hstr := utf8Bytes_inj _ _ (by
        unfold cpTarget at hce
        exact hce)
      exact candidatePayload_canonical_inj "" "" "" "" "" pred 1 q (123.4567 : ℚ)
        hq (by norm_num) (onGrid_of_round_eq q hr)
        ((onGrid_iff _).mpr ⟨1234567, by norm_num⟩) hstr
    · rw [if_neg hce] at hh
      exact absurd hh (by decide)
  exact ⟨hC, hU,
    C5_reconciliation_determinism.1 shaPoint "" "" "" "" "" "M" (123.4567 : ℚ)
      { symbol := "" } [1] hC hU (by norm_num) (by decide)⟩

/-- A `revealLoop` run that finishes with the changed flag still `false`
has skipped every symbol: the document and the row list are exactly the
ones it started from. -/
theorem revealLoop_ok_false (env : RevealEnv) (secret : String) :
    ∀ (syms : List String) (doc : Doc) (rows : List Row) (changed : Bool)
      (d : Doc) (r : List Row),
      revealLoop env secret syms doc rows changed = .ok d r false →
      d = doc ∧ r = rows ∧ changed = false
  | [], doc, rows, changed, d, r, h => by
    simp only [revealLoop] at h
    injection h with h1 h2 h3
    exact ⟨h1.symm, h2.symm, h3⟩
  | sym :: rest, doc, rows, changed, d, r, h => by
    simp only [revealLoop] at h
    split at h
    · exact RevealOutcome.noConfusion h
    · exact revealLoop_ok_false env secret rest doc rows changed d r h
    · exact absurd (revealLoop_ok_false env secret rest _ _ true d r h).2.2
        (by simp)

/-- **C10** (confirmed).  Idempotence: a symbol that already carries a
commit digest is left untouched by `perform_commit` (its record and the
changed flag are unchanged); a symbol whose `revealed_at_utc` is set is
skipped by the reveal loop; and whenever the changed flag of either
operation ends up `false`, the per-day document file is not rewritten
(commit returns the original file state, reveal leaves the whole file
state — document and CSV — exactly as it was). -/
theorem C10_idempotence :
    (∀ (env : CommitEnv) (secret : String) (doc : Doc) (sym : String) (r : Rec),
      symbolLookup doc.symbols sym = some r → r.commit.isSome = true →
      commitSymbol env secret doc sym = (doc, false)) ∧
    (∀ (env : RevealEnv) (secret : String) (doc : Doc) (sym : String) (r : Rec),
      symbolLookup doc.symbols sym = some r → r.revealed_at_utc.isSome = true →
      revealSymbol env secret doc sym = .ok none) ∧
    (∀ (env : CommitEnv) (ew : Bool) (fsDaily fs' : Option Doc),
      performCommit env ew fsDaily = .ok (fs', false) → fs' = fsDaily) ∧
    (∀ (env : RevealEnv) (ew : Bool) (fs fs' : FS),
      performReveal env ew fs = (fs', .ok false) → fs' = fs) := by
  refine ⟨?_, ?_, ?_, ?_⟩
  · intro env secret doc sym r hlook hc
    simp [commitSymbol, hlook, hc]
  · intro env secret doc sym r hlook hrev
    simp [revealSymbol, hlook, hrev]
  · intro env ew fsDaily fs' h
    simp only [performCommit] at h
    split at h
    · simp only [Except.ok.injEq, Prod.mk.injEq] at h
      exact h.1.symm
    split at h
    · simp only [Except.ok.injEq, Prod.mk.injEq] at h
      exact h.1.symm
    split at h
    · exact Except.noConfusion h
    · split at h
      · simp only [Except.ok.injEq, Prod.mk.injEq] at h
        exact absurd h.2 (by simp)
      · simp only [Except.ok.injEq, Prod.mk.injEq] at h
        exact h.1.symm
  · intro env ew fs fs' h
    simp only [performReveal] at h
    split at h
    · simp only [Prod.mk.injEq] at h
      exact h.1.symm
    split at h
    · simp only [Prod.mk.injEq] at h
      exact h.1.symm
    split at h
    · simp only [Prod.mk.injEq] at h
      exact absurd h.2 (by simp)
    · split at h
      · simp only [Prod.mk.injEq] at h
        exact h.1.symm
      · rename_i doc hdoc
        split at h
        · rename_i doc' rows changed hloop
          simp only [Prod.mk.injEq, Except.ok.injEq] at h
          obtain ⟨hfs, hch⟩ := h
          subst hch
          obtain ⟨-, hrows, -⟩ :=
            revealLoop_ok_false env _ env.cfg.symbols doc [] false doc' rows hloop
          subst hrows
          simp only [if_neg (by simp : ¬ (false = true)), List.append_nil] at hfs
          exact hfs.symm
        · simp only [Prod.mk.injEq] at h
          exact absurd h.2 (by simp)

/-- A record that already carries a commit digest. -/
def recC10 : Rec := { symbol := "SPY", commit := some "c" }

/-- A per-day document holding only the already-committed record. -/
def doc10 : Doc := { date := "2024-01-02", symbols := [recC10] }

/-- A commit environment whose data feed yields no minute bar, so the
uncommitted symbol is also skipped. -/
def cEnv10 : CommitEnv :=
  { cfg := defaultConfig, sha := shaConst64, hmacHex := hmacConst,
    isTradingDay := true, withinWindow := true, secret := some "k",
    minuteBar := fun _ => none, predict := fun _ => 0,
    nowUtcIso := "", tradeDateIso := "2024-01-02",
    metaGeneratedAt := "", codeCommit := "" }

/-- A record whose reveal has already happened. -/
def recR10 : Rec :=
  { symbol := "SPY", commit := some "c", revealed_at_utc := some "t" }

/-- A per-day document holding only the already-revealed record. -/
def docR10 : Doc := { date := "2024-01-02", symbols := [recR10] }

/-- A reveal environment for the idempotence scenario. -/
def rEnv10 : RevealEnv :=
  { cfg := defaultConfig, sha := shaConst64, hmacHex := hmacConst,
    isTradingDay := true, withinWindow := true, secret := some "k",
    prevToday := fun _ => (none, none), predictGuess := fun _ => 0,
    priceAtBar := fun _ _ => none, nowUtcIso := "",
    tradeDateIso := "2024-01-02", fallbackBarTs := "" }

/-- The file state before the second reveal. -/
def fs10 : FS := { daily := some docR10, csv := [] }

/-- Witness for C10: re-running commit on the committed document and
reveal on the revealed document both report `false` and leave every file
untouched. -/
theorem C10_idempotence_witness :
    (symbolLookup doc10.symbols "SPY" = some recC10 ∧
      recC10.commit.isSome = true ∧
      commitSymbol cEnv10 "k" doc10 "SPY" = (doc10, false)) ∧
    (symbolLookup docR10.symbols "SPY" = some recR10 ∧
      recR10.revealed_at_utc.isSome = true ∧
      revealSymbol rEnv10 "k" docR10 "SPY" = .ok none) ∧
    (performCommit cEnv10 true (some doc10) = .ok (some doc10, false) ∧
      (some doc10 : Option Doc) = some doc10) ∧
    (performReveal rEnv10 true fs10 = (fs10, .ok false) ∧ fs10 = fs10) := by
  have ha : symbolLookup doc10.symbols "SPY" = some recC10 := by decide
  have hb : recC10.commit.isSome = true := by decide
  have hc : symbolLookup docR10.symbols "SPY" = some recR10 := by decide
  have hd : recR10.revealed_at_utc.isSome = true := by decide
  have he : performCommit cEnv10 true (some doc10) = .ok (some doc10, false) := by
    decide
  have hf : performReveal rEnv10 true fs10 = (fs10, .ok false) := by decide
  exact ⟨⟨ha, hb, C10_idempotence.1 cEnv10 "k" doc10 "SPY" recC10 ha hb⟩,
    ⟨hc, hd, C10_idempotence.2.1 rEnv10 "k" docR10 "SPY" recR10 hc hd⟩,
    ⟨he, C10_idempotence.2.2.1 cEnv10 true (some doc10) (some doc10) he⟩,
    ⟨hf, C10_idempotence.2.2.2 rEnv10 true fs10 fs10 hf⟩⟩

/-- The `commit_inputs` payload built by `perform_commit` for a fresh
symbol (lines 348-360), as a named value. -/
def commitFreshCI (env : CommitEnv) (sym : String) (p : ℚ) (barTs : String) :
    CommitInputs :=
  { symbol := sym, prediction := env.predict sym,
    p_commit := roundCommitPrice p, commit_bar_ts_et := barTs,
    timestamp_commit_utc := env.nowUtcIso,
    context := contextOf env.tradeDateIso sym (env.cfg.exchangeOf sym) }

/-- The Symbol Record appended by `perform_commit` for a fresh symbol
(lines 362-374), as a named value. -/
def commitFreshRec (env : CommitEnv) (secret sym : String) (p : ℚ)
    (barTs : String) : Rec :=
  let ci := commitFreshCI env sym p barTs
  let s := saltOf env.hmacHex secret ci.context
  { symbol := sym,
    commit := some (hashCommitPayload env.sha (commitPayloadFields ci s)),
    commit_bar_ts_et := some barTs, committed_at_utc := some env.nowUtcIso,
    commit_inputs := some ci.toStored }

/-- A fresh symbol (no record yet) with a minute bar available is committed
by appending exactly the record of `commitFreshRec`. -/
theorem commitSymbol_fresh (env : CommitEnv) (secret : String) (doc : Doc)
    (sym : String) (p : ℚ) (barTs : String)
    (hlook : symbolLookup doc.symbols sym = none)
    (hbar : env.minuteBar sym = some (p, barTs)) :
    commitSymbol env secret doc sym
      = ({ doc with
            symbols := doc.symbols ++ [commitFreshRec env secret sym p barTs] },
         true) := by
  simp [commitSymbol, hlook, hbar, commitFreshRec, commitFreshCI]

/-- A record found by appending to a list that does not contain the
symbol. -/
theorem symbolLookup_append_none (l : List Rec) (sym : String) (r : Rec)
    (h : symbolLookup l sym = none) (hr : r.symbol = sym) :
    symbolLookup (l ++ [r]) sym = some r := by
  induction l with
  | nil => simp [symbolLookup, List.find?, hr]
  | cons x rest ih =>
    simp only [symbolLookup, List.cons_append, List.find?] at h ⊢
    cases hx : (x.symbol == sym) with
    | true =>
      simp only [hx] at h
      exact absurd h (by simp)
    | false =>
      simp only [hx] at h ⊢
      exact ih h

/-- `prediction_candidates` always starts with the stored prediction. -/
theorem predictionCandidates_head (P g : ℤ) :
    ∃ tl, predictionCandidates (some P) g = P :: tl := by
  simp only [predictionCandidates]
  split_ifs <;> first | exact ⟨_, rfl⟩ | simp_all

/-- `_ensure_commit_inputs` on a record whose stored `commit_inputs` are
complete, already rounded, and whose digest re-verifies: the stored pair is
returned at the first candidate, via the stored-price fast path. -/
theorem ensureCommitInputs_stored (env' : RevealEnv) (secret sym : String)
    (ci : CommitInputs) (C : String) (r : Rec)
    (hsym : ci.symbol = sym)
    (hcommit : r.commit = some C)
    (hci : r.commit_inputs = some ci.toStored)
    (hctx : contextOf env'.tradeDateIso sym (env'.cfg.exchangeOf sym)
      = ci.context)
    (hround : roundCommitPrice ci.p_commit = ci.p_commit)
    (hhash : hashCommitPayload env'.sha
      (candidatePayload ci.base ci.p_commit
        (saltOf env'.hmacHex secret ci.context)) = C) :
    ensureCommitInputs env' secret r sym
      = .ok (ci, { r with
                    commit := some C
                    commit_inputs := some ci.toStored }) := by
  subst hsym
  obtain ⟨tl, htl⟩ :=
    predictionCandidates_head ci.prediction (env'.predictGuess ci.symbol)
  dsimp only [CommitInputs.base] at hhash
  simp only [ensureCommitInputs, hcommit, hci]
  show ensureLoop env'.sha
      (saltOf env'.hmacHex secret
        (contextOf env'.tradeDateIso ci.symbol (env'.cfg.exchangeOf ci.symbol)))
      C (contextOf env'.tradeDateIso ci.symbol (env'.cfg.exchangeOf ci.symbol))
      ci.commit_bar_ts_et ci.timestamp_commit_utc ci.symbol
      (some ci.p_commit) (some ci.p_commit) r
      (predictionCandidates (some ci.prediction) (env'.predictGuess ci.symbol))
      = .ok (ci, { r with
                    commit := some C
                    commit_inputs := some ci.toStored })
  rw [hctx, htl]
  simp only [ensureLoop, hround, hhash, eq_self_iff_true, if_true]
  rw [hcommit]

/-- The quantized magnitude always fits in a byte. -/
theorem magQ_bounds (δ : ℚ) :
    0 ≤ pyMin (pyInt (ratAbs δ * 100)) 255 ∧
      pyMin (pyInt (ratAbs δ * 100)) 255 < 256 := by
  have h0 : (0 : ℚ) ≤ ratAbs δ * 100 := by
    unfold ratAbs
    split_ifs with h
    · linarith
    · linarith [not_lt.mp h]
  have h1 : (0 : ℤ) ≤ pyInt (ratAbs δ * 100) := by
    unfold pyInt
    rw [if_neg (not_lt.mpr h0), ratFloor_eq]
    exact Int.le_floor.mpr (by exact_mod_cast h0)
  constructor <;> (unfold pyMin; split_ifs <;> omega)

/-- `bytes([...])` succeeds exactly on byte-range values. -/
theorem pyBytes_some_of_range (l : List ℤ) (h : ∀ v ∈ l, 0 ≤ v ∧ v < 256) :
    pyBytes l = some (l.map Int.toNat) := by
  unfold pyBytes
  rw [if_pos (by simp only [List.all_eq_true, decide_eq_true_eq]; exact h)]

/-- `verifyReveal` succeeds (raises nothing) whenever the stored commit
digest re-verifies against the re-rounded stored inputs and the prediction
fits in a byte. -/
theorem verifyReveal_success (env' : RevealEnv) (secret : String) (doc : Doc)
    (sym : String) (r : Rec) (prev today : ℚ) (ci : CommitInputs) (rec1 : Rec)
    (hround : roundCommitPrice ci.p_commit = ci.p_commit)
    (hcommit : r.commit = some (hashCommitPayload env'.sha
      (candidatePayload ci.base ci.p_commit
        (saltOf env'.hmacHex secret ci.context))))
    (hP0 : 0 ≤ ci.prediction) (hP1 : ci.prediction < 256) :
    ∃ d row, verifyReveal env' secret doc sym r prev today ci rec1
      = .ok (some (d, row)) := by
  have h4 : ∀ v ∈ [ci.prediction, (if today > prev then (1 : ℤ) else 0),
      (if today - ci.p_commit > 0 then (1 : ℤ) else 0),
      pyMin (pyInt (ratAbs (today - ci.p_commit) * 100)) 255],
      0 ≤ v ∧ v < 256 := by
    intro v hv
    simp only [List.mem_cons, List.not_mem_nil, or_false] at hv
    rcases hv with rfl | rfl | rfl | rfl
    · exact ⟨hP0, hP1⟩
    · split_ifs <;> omega
    · split_ifs <;> omega
    · exact magQ_bounds (today - ci.p_commit)
  dsimp only [verifyReveal]
  rw [hround]
  dsimp only [CommitInputs.base] at hcommit ⊢
  rw [hcommit, if_neg (fun hne => hne rfl),
    pyBytes_some_of_range _ h4]
  exact ⟨_, _, rfl⟩

/-- **C1** (confirmed).  Commit/reveal round-trip: a fresh successful
commit stores `commit_inputs` and a digest; re-deriving the salt from the
same secret and the record's context and re-hashing the canonical
serialization of the stored (re-rounded) commit inputs with that salt
reproduces exactly the stored digest, and a subsequent reveal of the
unmodified record under any environment agreeing on the digest function,
the HMAC, the trade date and the symbol's exchange passes its verification
without raising (provided both closes are available and the prediction
fits in a byte). -/
theorem C1_commit_reveal_roundtrip
    (env : CommitEnv) (env' : RevealEnv) (secret : String) (doc : Doc)
    (sym : String) (p : ℚ) (barTs : String) (prev today : ℚ)
    (hsha : env'.sha = env.sha) (hhmac : env'.hmacHex = env.hmacHex)
    (hdate : env'.tradeDateIso = env.tradeDateIso)
    (hexch : env'.cfg.exchangeOf sym = env.cfg.exchangeOf sym)
    (hlook : symbolLookup doc.symbols sym = none)
    (hbar : env.minuteBar sym = some (p, barTs))
    (hclose : env'.prevToday sym = (some prev, some today))
    (hP0 : 0 ≤ env.predict sym) (hP1 : env.predict sym < 256) :
    commitSymbol env secret doc sym
      = ({ doc with
            symbols := doc.symbols ++ [commitFreshRec env secret sym p barTs] },
         true) ∧
    (commitFreshRec env secret sym p barTs).commit_inputs
      = some (commitFreshCI env sym p barTs).toStored ∧
    (commitFreshRec env secret sym p barTs).commit
      = some (hashCommitPayload env.sha
          (candidatePayload (commitFreshCI env sym p barTs).base
            (roundCommitPrice (commitFreshCI env sym p barTs).p_commit)
            (saltOf env.hmacHex secret (commitFreshCI env sym p barTs).context))) ∧
    ∃ d row, revealSymbol env' secret
        { doc with
            symbols := doc.symbols ++ [commitFreshRec env secret sym p barTs] }
        sym = .ok (some (d, row)) := by
  refine ⟨commitSymbol_fresh env secret doc sym p barTs hlook hbar, rfl, ?_, ?_⟩
  · rw [show roundCommitPrice (commitFreshCI env sym p barTs).p_commit
        = (commitFreshCI env sym p barTs).p_commit from roundCommitPrice_idem p]
    exact congrArg some
      (hashCommitPayload_commit_eq_candidate env.sha (commitFreshCI env sym p barTs) _)
  · have hcommit : (commitFreshRec env secret sym p barTs).commit
        = some (hashCommitPayload env'.sha (candidatePayload
            (commitFreshCI env sym p barTs).base
            (commitFreshCI env sym p barTs).p_commit
            (saltOf env'.hmacHex secret (commitFreshCI env sym p barTs).context))) := by
      rw [hsha, hhmac]
      exact congrArg some
        (hashCommitPayload_commit_eq_candidate env.sha (commitFreshCI env sym p barTs) _)
    have hctx2 : contextOf env'.tradeDateIso sym (env'.cfg.exchangeOf sym)
        = (commitFreshCI env sym p barTs).context := by
      rw [hdate, hexch]
      rfl
    have hens := ensureCommitInputs_stored env' secret sym
      (commitFreshCI env sym p barTs)
      (hashCommitPayload env'.sha (candidatePayload
        (commitFreshCI env sym p barTs).base
        (commitFreshCI env sym p barTs).p_commit
        (saltOf env'.hmacHex secret (commitFreshCI env sym p barTs).context)))
      (commitFreshRec env secret sym p barTs)
      rfl hcommit rfl hctx2 (roundCommitPrice_idem p) rfl
    obtain ⟨d, row, hv⟩ := verifyReveal_success env' secret
      { doc with
          symbols := doc.symbols ++ [commitFreshRec env secret sym p barTs] }
      sym (commitFreshRec env secret sym p barTs)
      prev today (commitFreshCI env sym p barTs)
      { commitFreshRec env secret sym p barTs with
          commit := some (hashCommitPayload env'.sha (candidatePayload
            (commitFreshCI env sym p barTs).base
            (commitFreshCI env sym p barTs).p_commit
            (saltOf env'.hmacHex secret (commitFreshCI env sym p barTs).context)))
          commit_inputs := some (commitFreshCI env sym p barTs).toStored }
      (roundCommitPrice_idem p) hcommit hP0 hP1
    have hlook2 : symbolLookup
        ({ doc with
            symbols := doc.symbols ++ [commitFreshRec env secret sym p barTs] } :
          Doc).symbols sym = some (commitFreshRec env secret sym p barTs) :=
      symbolLookup_append_none doc.symbols sym _ hlook rfl
    have hcz : (commitFreshRec env secret sym p barTs).commit.isNone = false := rfl
    have hrz : (commitFreshRec env secret sym p barTs).revealed_at_utc.isSome
        = false := rfl
    refine ⟨d, row, ?_⟩
    simp only [revealSymbol, hlook2, hcz, hrz, hclose, hens, Bool.false_eq_true,
      if_false]
    exact hv

/-- Witness for C1: in the toy scenario, the fresh SPY commit re-verifies
and its reveal completes without raising. -/
theorem C1_commit_reveal_roundtrip_witness :
    symbolLookup ({ date := "2024-01-16", symbols := [] } : Doc).symbols "SPY"
      = none ∧
    wCommitEnv.minuteBar "SPY" = some (100.25, "2024-01-16T15:55:00-05:00") ∧
    wRevealEnv.prevToday "SPY" = (some 100, some 100.386) ∧
    (0 : ℤ) ≤ wCommitEnv.predict "SPY" ∧ wCommitEnv.predict "SPY" < 256 ∧
    ∃ d row, revealSymbol wRevealEnv "testkey"
        { ({ date := "2024-01-16", symbols := [] } : Doc) with
            symbols := [] ++ [commitFreshRec wCommitEnv "testkey" "SPY" 100.25
              "2024-01-16T15:55:00-05:00"] }
        "SPY" = .ok (some (d, row)) := by
  have h1 : symbolLookup ({ date := "2024-01-16", symbols := [] } : Doc).symbols
      "SPY" = none := rfl
  have h2 : wCommitEnv.minuteBar "SPY"
      = some (100.25, "2024-01-16T15:55:00-05:00") := rfl
  have h3 : wRevealEnv.prevToday "SPY" = (some 100, some 100.386) := rfl
  exact ⟨h1, h2, h3, by decide, by decide,
    (C1_commit_reveal_roundtrip wCommitEnv wRevealEnv "testkey"
      { date := "2024-01-16", symbols := [] } "SPY" 100.25
      "2024-01-16T15:55:00-05:00" 100 100.386 rfl rfl rfl rfl h1 h2 h3
      (by decide) (by decide)).2.2.2⟩

/-- The reveal loop splits over list append: the tail runs from the state
the prefix produced, and a prefix error short-circuits. -/
theorem revealLoop_append (env : RevealEnv) (secret : String) :
    ∀ (l₁ l₂ : List String) (doc : Doc) (rows : List Row) (changed : Bool),
      revealLoop env secret (l₁ ++ l₂) doc rows changed
        = match revealLoop env secret l₁ doc rows changed with
          | .ok d r ch => revealLoop env secret l₂ d r ch
          | .err r m => .err r m
  | [], l₂, doc, rows, changed => by simp only [List.nil_append, revealLoop]
  | sym :: rest, l₂, doc, rows, changed => by
    simp only [List.cons_append, revealLoop]
    cases hrs : revealSymbol env secret doc sym with
    | error msg => rfl
    | ok o =>
      cases o with
      | none => exact revealLoop_append env secret rest l₂ doc rows changed
      | some pr =>
        exact revealLoop_append env secret rest l₂ pr.1 (rows ++ [pr.2]) true

/-- **C2** (confirmed).  Commit-mismatch atomicity: whenever the recomputed
digest of a symbol's commit inputs plus re-derived salt differs from the
stored commit, the verification step raises the fatal commit-mismatch
error; and when any symbol of the reveal loop raises, `perform_reveal`
stops at that symbol (no later symbol is processed), the per-day document
file is not rewritten, and the entropy CSV keeps exactly the rows of the
symbols completed before the failure. -/
theorem C2_commit_mismatch_atomicity :
    (∀ (env : RevealEnv) (secret : String) (doc : Doc) (sym : String)
        (r : Rec) (p t : ℚ) (ci : CommitInputs) (rec1 : Rec),
      r.commit ≠ some (hashCommitPayload env.sha
        (candidatePayload ci.base (roundCommitPrice ci.p_commit)
          (saltOf env.hmacHex secret ci.context))) →
      verifyReveal env secret doc sym r p t ci rec1
        = .error ("Commit mismatch for " ++ sym)) ∧
    (∀ (env : RevealEnv) (ew : Bool) (fs : FS) (secret : String) (doc : Doc)
        (pre : List String) (sym : String) (post : List String)
        (doc₁ : Doc) (rows₁ : List Row) (ch₁ : Bool) (msg : String),
      env.isTradingDay = true →
      (ew && !env.withinWindow) = false →
      env.secret = some secret →
      fs.daily = some doc →
      env.cfg.symbols = pre ++ sym :: post →
      revealLoop env secret pre doc [] false = .ok doc₁ rows₁ ch₁ →
      revealSymbol env secret doc₁ sym = .error msg →
      performReveal env ew fs
        = ({ daily := fs.daily, csv := fs.csv ++ rows₁ }, .error msg)) := by
  constructor
  · intro env secret doc sym r p t ci rec1 hne
    dsimp only [verifyReveal]
    dsimp only [CommitInputs.base] at hne ⊢
    rw [if_pos hne]
  · intro env ew fs secret doc pre sym post doc₁ rows₁ ch₁ msg htd hwin hsec
      hdaily hsyms hpre hfail
    simp only [performReveal, htd, hwin, hsec, hdaily, Bool.not_true,
      Bool.false_eq_true, if_false]
    rw [hsyms, revealLoop_append, hpre]
    simp only [revealLoop, hfail]

/-- Stored commit inputs whose prediction does not fit in a byte. -/
def ciC2 : CommitInputs :=
  { symbol := "SPY", prediction := 300, p_commit := 100,
    commit_bar_ts_et := "b", timestamp_commit_utc := "t", context := "c" }

/-- A record that passes reconciliation (the constant digest always
matches) but whose outcome bytes are out of range. -/
def recC2 : Rec :=
  { symbol := "SPY", commit := some (shaConst64 []),
    commit_inputs := some ciC2.toStored }

/-- The per-day document of the atomicity scenario. -/
def docC2 : Doc := { date := "2024-01-02", symbols := [recC2] }

/-- A reveal environment whose closes are available for every symbol. -/
def rEnvC2 : RevealEnv :=
  { rEnv10 with
      prevToday := fun _ => (some 100, some 101) }

/-- The file state before the failing reveal. -/
def fsC2 : FS := { daily := some docC2, csv := [] }

unseal Rat.add Rat.mul Rat.sub Rat.inv Rat.ofScientific in
/-- Witness for C2: a tampered commit makes the verification step raise
the commit-mismatch error; and a reveal whose first symbol raises leaves
the document file untouched with no CSV row appended. -/
theorem C2_commit_mismatch_atomicity_witness :
    (({ symbol := "SPY", commit := some "tampered" } : Rec).commit
      ≠ some (hashCommitPayload rEnv10.sha
        (candidatePayload ciC2.base (roundCommitPrice ciC2.p_commit)
          (saltOf rEnv10.hmacHex "k" ciC2.context)))) ∧
    verifyReveal rEnv10 "k" docR10 "SPY"
      { symbol := "SPY", commit := some "tampered" } 100 100.386 ciC2
      { symbol := "SPY" }
      = .error ("Commit mismatch for " ++ "SPY") ∧
    rEnvC2.cfg.symbols = [] ++ "SPY" :: ["AAPL"] ∧
    revealLoop rEnvC2 "k" [] docC2 [] false = .ok docC2 [] false ∧
    revealSymbol rEnvC2 "k" docC2 "SPY" = .error "bytes value out of range" ∧
    performReveal rEnvC2 true fsC2
      = ({ daily := fsC2.daily, csv := fsC2.csv ++ [] },
         .error "bytes value out of range") := by
  have h1 : (({ symbol := "SPY", commit := some "tampered" } : Rec).commit
      ≠ some (hashCommitPayload rEnv10.sha
        (candidatePayload ciC2.base (roundCommitPrice ciC2.p_commit)
          (saltOf rEnv10.hmacHex "k" ciC2.context)))) := by decide
  have h4 : revealLoop rEnvC2 "k" [] docC2 [] false = .ok docC2 [] false := rfl
  have h5 : revealSymbol rEnvC2 "k" docC2 "SPY"
      = .error "bytes value out of range" := by decide
  exact ⟨h1,
    C2_commit_mismatch_atomicity.1 rEnv10 "k" docR10 "SPY"
      { symbol := "SPY", commit := some "tampered" } 100 100.386 ciC2
      { symbol := "SPY" } h1,
    rfl, h4, h5,
    C2_commit_mismatch_atomicity.2 rEnvC2 true fsC2 "k" docC2 [] "SPY"
      ["AAPL"] docC2 [] false "bytes value out of range" rfl rfl rfl rfl rfl
      h4 h5⟩

end RRPE
